import Mathlib

/-!
# minio_csv_to_json: offset planner, chunk reader, record renderer and merger

A shallow embedding of `convert.go` and `validate_column.go`.

* Go `int` values are modelled as `Int`.  No operation of the planner leaves the
  interval `[-1, totalBytes]` when `totalBytes > 0`, so 64-bit wrap-around never occurs.
* Go `[]byte` and `string` values are modelled as `List Char`, one `Char` per byte.
* Channels are modelled by the list of values sent on them, in sending order.
-/

namespace MinioCsvToJson

set_option maxRecDepth 100000

/-! ## Offset planner (`convert.go`, `computeGoroutineOffsets`) -/

/-- The `for goroutineNo := 0; goroutineNo < totalGoroutines-1; goroutineNo++` loop of
`computeGoroutineOffsets`, with `k` iterations left and the current `start`, `end`.
Returns the ranges stored by the loop, in index order, and the value of `start` on exit. -/
def distributeLoop (bytesPerGoroutine : Int) : Nat → Int → Int → List (Int × Int) × Int
  | 0, start, _ => ([], start)
  | k + 1, start, end_ =>
    let r := distributeLoop bytesPerGoroutine k (end_ + 1) (end_ + bytesPerGoroutine)
    ((start, end_) :: r.1, r.2)

/-- Go: `func (c *convert) computeGoroutineOffsets(totalBytes, maxGoroutines,
minBytesReadByAGoroutine int) [][2]int`.  The `nil` result is the empty list.
Go's `/` truncates towards zero, which is `Int.tdiv`. -/
def computeGoroutineOffsets (totalBytes maxGoroutines minBytesReadByAGoroutine : Int) :
    List (Int × Int) :=
  if totalBytes ≤ 0 then []
  else
    let minBytesReadByAGoroutine :=
      if minBytesReadByAGoroutine ≤ 0 then 1 else minBytesReadByAGoroutine
    let maxGoroutines := if maxGoroutines ≤ 0 then 1 else maxGoroutines
    if totalBytes ≤ minBytesReadByAGoroutine then [(0, totalBytes - 1)]
    else
      let totalGoroutines := Int.tdiv totalBytes minBytesReadByAGoroutine
      if totalGoroutines = 1 then [(0, totalBytes - 1)]
      else
        let totalGoroutines :=
          if totalGoroutines > maxGoroutines then maxGoroutines else totalGoroutines
        let bytesPerGoroutine := Int.tdiv totalBytes totalGoroutines
        let r := distributeLoop bytesPerGoroutine (totalGoroutines - 1).toNat 0
          (bytesPerGoroutine - 1)
        r.1 ++ [(r.2, totalBytes - 1)]

/-- Clamping of a non-positive planner parameter to 1, as the spec words it. -/
def clampToOne (x : Int) : Int := if x ≤ 0 then 1 else x

/-- The number of units as the spec words it: one unit if the file is not larger than
the minimum or the quotient is 1, otherwise the quotient clipped to the parallelism. -/
def specUnitCount (totalBytes maxParallelism minBytesPerUnit : Int) : Int :=
  if totalBytes ≤ minBytesPerUnit ∨ totalBytes / minBytesPerUnit = 1 then 1
  else min (totalBytes / minBytesPerUnit) maxParallelism

/-- Range number `i` of `n` as the spec words it: every unit but the last gets exactly
`b = totalBytes / n` bytes, the last one runs to the end of the file. -/
def specRange (totalBytes n : Int) (i : Nat) : Int × Int :=
  let b := totalBytes / n
  if (i : Int) < n - 1 then ((i : Int) * b, ((i : Int) + 1) * b - 1)
  else ((n - 1) * b, totalBytes - 1)

/-- The ranges as the spec words them. -/
def specRanges (totalBytes maxParallelism minBytesPerUnit : Int) : List (Int × Int) :=
  let n := specUnitCount totalBytes maxParallelism minBytesPerUnit
  (List.range n.toNat).map (specRange totalBytes n)

/-- Recursive form of tiling: the ranges of `rs`, in order, tile `[lo, hi]`. -/
def TilesFrom : Int → Int → List (Int × Int) → Prop
  | _, _, [] => False
  | lo, hi, [r] => r.1 = lo ∧ r.2 = hi ∧ r.1 ≤ r.2
  | lo, hi, r :: r' :: rs => r.1 = lo ∧ r.1 ≤ r.2 ∧ TilesFrom (r.2 + 1) hi (r' :: rs)

/-! ## Record schema (`validate_column.go`) -/

/-- Go `[]byte` / `string`: a sequence of bytes, one `Char` per byte. -/
abbrev Bytes := List Char

/-- The line terminator `'\n'` (byte 10). -/
def newline : Char := Char.ofNat 10

/-- The double quote `"` (byte 34). -/
def dquote : Char := Char.ofNat 34

/-- Go: `type Column struct { Name, Rules string; isNoQuoteJson bool }`. -/
structure Column where
  Name : Bytes
  Rules : Bytes
  isNoQuoteJson : Bool
  deriving DecidableEq, Repr

/-- The error value of a failed validation (its text is not modelled). -/
structure ValidationError where
  rules : Bytes
  value : Bytes
  deriving DecidableEq, Repr

/-- The external validator `(*validator.Validate).Var(value, rules)` of
go-playground/validator, including the `recover` of `Column.Validate` that turns a
panic of the validator into an error: `none` is a `nil` error. -/
abbrev Validator := Bytes → Bytes → Option ValidationError

/-- Go: `type sheetOption struct { columns []Column; validator *validator.Validate }`. -/
structure SheetOption where
  columns : List Column
  validator : Validator

/-- Go: `func (so *sheetOption) GetColumnLength() int`. -/
def SheetOption.GetColumnLength (so : SheetOption) : Int := so.columns.length

/-- Go: `strings.Contains(s, substr)`: `substr` occurs somewhere within `s`. -/
def Contains : Bytes → Bytes → Bool
  | [], substr => substr.isEmpty
  | c :: cs, substr => substr.isPrefixOf (c :: cs) || Contains cs substr

/-- Go: `func (c *Column) Validate(validate *validator.Validate, value string) error`. -/
def Column.Validate (c : Column) (validate : Validator) (value : Bytes) :
    Option ValidationError :=
  validate value c.Rules

/-- Go: `func (c *Column) updateIsNoQuoteJson() bool`: one of the words `numeric`,
`number`, `bool` occurs in the text of `Rules`. -/
def Column.updateIsNoQuoteJson (c : Column) : Bool :=
  ["numeric".toList, "number".toList, "bool".toList].any (fun dic => Contains c.Rules dic)

/-- Go: `func (c *Column) withQuote(value string) []byte`, `fmt.Sprintf` of `"%s"`:
the value between two double quotes, with no escaping. -/
def Column.withQuote (_c : Column) (value : Bytes) : Bytes :=
  [dquote] ++ value ++ [dquote]

/-- Go: `func (c *Column) nameValue() []byte`. -/
def Column.nameValue (c : Column) : Bytes := c.withQuote c.Name

/-- Go: `func (c *Column) writeValue(value string) []byte`. -/
def Column.writeValue (c : Column) (value : Bytes) : Bytes :=
  if c.isNoQuoteJson then value else c.withQuote value

/-- Go: `func (so *sheetOption) init()`. -/
def initColumns (columns : List Column) : List Column :=
  columns.map (fun col => { col with isNoQuoteJson := col.updateIsNoQuoteJson })

/-- Go: `func NewSheetOption(validator *validator.Validate, columns []Column) SheetOption`. -/
def NewSheetOption (validator : Validator) (columns : List Column) : SheetOption :=
  { columns := initColumns columns, validator := validator }

/-- The three ways a call of `ValidateRow` ends: a fragment with a `nil` error, a `nil`
fragment with an error, or the run-time panic of `rows[idx]` with the index out of
range (nothing is returned). -/
inductive RowResult where
  | ok (fragment : Bytes)
  | error (err : ValidationError)
  | indexPanic
  deriving DecidableEq, Repr

/-- The `for idx, column := range so.columns` loop of `ValidateRow`, from index `idx`
on, with the buffer `bt` written so far. -/
def validateLoop (so : SheetOption) (rows : List Bytes) (maxColumn : Int) :
    Nat → List Column → Bytes → RowResult
  | _, [], bt => RowResult.ok bt
  | idx, column :: rest, bt =>
    match rows[idx]? with
    | none => RowResult.indexPanic
    | some row =>
      match column.Validate so.validator row with
      | some err => RowResult.error err
      | none =>
        let bt := if idx > 0 ∧ (idx : Int) < maxColumn then bt ++ [','] else bt
        validateLoop so rows maxColumn (idx + 1) rest
          (bt ++ column.nameValue ++ [':'] ++ column.writeValue row)

/-- Go: `func (so *sheetOption) ValidateRow(rows []string) ([]byte, error)`. -/
def SheetOption.ValidateRow (so : SheetOption) (rows : List Bytes) : RowResult :=
  match validateLoop so rows so.GetColumnLength 0 so.columns ['{'] with
  | RowResult.ok bt => RowResult.ok (bt ++ ['}'])
  | r => r

/-! ## Chunk reader (`convert.go`, `readLine` and `readBetweenOffsetsAsync`)

Assumptions of the model, none of which is decided by the repository's code:
* every reader sees the bytes of the object from its own seek position (an independent
  read session per range, as the spec prescribes), and reading the object never fails;
* the context is never cancelled;
* `bufio` and `encoding/csv` behave as documented by the Go standard library. -/

/-- Split after the first `'\n'`: the line with its terminator, and the bytes after it.
Without a `'\n'` the whole input is the first part. -/
def splitLine : Bytes → Bytes × Bytes
  | [] => ([], [])
  | c :: cs => if c = newline then ([c], cs) else (c :: (splitLine cs).1, (splitLine cs).2)

/-- The three results of `(*bufio.Reader).ReadSlice('\n')` on a reader whose unread
bytes are known: a line ending in the delimiter (`err == nil`), the remaining bytes at
the end of the stream (`err == io.EOF`), or `bufio.ErrBufferFull` when the buffer fills
without a delimiter. -/
inductive SliceResult where
  | ok (line rest : Bytes)
  | eof (line : Bytes)
  | bufferFull
  deriving DecidableEq, Repr

/-- Go standard library: `(*bufio.Reader).ReadSlice('\n')` for a buffer of `size` bytes
over the unread bytes `rest`.  A line of up to `size` bytes, terminator included, is
returned whole; the end of the stream is seen only if fewer than `size` bytes remain. -/
def ReadSlice (size : Nat) (rest : Bytes) : SliceResult :=
  let p := splitLine rest
  if p.1.getLast? = some newline ∧ p.1.length ≤ size then SliceResult.ok p.1 p.2
  else if rest.length < size then SliceResult.eof rest
  else SliceResult.bufferFull

/-- The errors a reader sends on `errsChan`, with the numbers they are formatted with. -/
inductive ReadError where
  | fileSize
  | couldNotParseRow (thread offset : Int)
  | couldNotReadLine (thread offset : Int)
  deriving DecidableEq, Repr

/-- Result of `readLine`: a non-nil line with the bytes left unread, or `nil` together
with the error sent on `errsChan`, if any. -/
inductive LineResult where
  | line (line rest : Bytes)
  | stop (err : Option ReadError)
  deriving DecidableEq, Repr

/-- Go: `func (c *convert) readLine(r *bufio.Reader, thread, offsetPos int,
errsChan chan<- error) []byte`. -/
def readLine (size : Nat) (r : Bytes) (thread offsetPos : Int) : LineResult :=
  match ReadSlice size r with
  | SliceResult.ok line rest => LineResult.line line rest
  | SliceResult.eof line =>
    if line.length ≠ 0 then LineResult.line line [] else LineResult.stop none
  | SliceResult.bufferFull => LineResult.stop (some (ReadError.couldNotReadLine thread offsetPos))

/-- What the field splitting of `encoding/csv` (with the configured `Comma` and
`LazyQuotes`) makes of the bytes of one line: no record at all (`io.EOF`, an empty
line), the fields of a record, or a syntax error together with the fields split so far. -/
inductive Parsed where
  | eof
  | record (fields : List Bytes)
  | syntaxError (fields : List Bytes)
  deriving DecidableEq, Repr

/-- The state of a `csv.Reader` that matters between two calls of `Read`. -/
structure CsvReader where
  FieldsPerRecord : Int
  deriving DecidableEq, Repr

/-- Go standard library: `(*csv.Reader).Read` on a reader holding exactly one line.
A positive `FieldsPerRecord` rejects a record of another length (`ErrFieldCount`);
zero is replaced by the number of fields of the first record.  The caller drops the
record whenever an error is returned, so `none` stands for every error. -/
def CsvReader.Read (parse : Bytes → Parsed) (r : CsvReader) (line : Bytes) :
    Option (List Bytes) × CsvReader :=
  match parse line with
  | Parsed.eof => (none, r)
  | Parsed.record fields =>
    if r.FieldsPerRecord > 0 then
      if (fields.length : Int) ≠ r.FieldsPerRecord then (none, r) else (some fields, r)
    else if r.FieldsPerRecord = 0 then (some fields, { FieldsPerRecord := fields.length })
    else (some fields, r)
  | Parsed.syntaxError fields =>
    if r.FieldsPerRecord = 0 then (none, { FieldsPerRecord := fields.length }) else (none, r)

/-- Go: the fields of `type convert struct` that the reader, the workers and `Convert`
use.  `parse` is `encoding/csv` configured with `columnDelimiter` and `lazyQuotes`. -/
structure convert where
  sheetOption : SheetOption
  maxGoroutineUses : Int
  hasHeaderFile : Bool
  bufferSize : Int
  parse : Bytes → Parsed

/-- One iteration of the reading loop: the value of `currentOffsetPos` when the line was
read, the bytes of the line, and the record sent on `rowsChan` (`none`: the line did not
parse and an error was sent on `errsChan` instead). -/
structure Step where
  offset : Int
  line : Bytes
  record : Option (List Bytes)
  deriving DecidableEq, Repr

/-- Everything one reader sends: its loop iterations in order, and the read error that
ended it, if any. -/
structure ReaderOutput where
  steps : List Step
  readErr : Option ReadError
  deriving DecidableEq, Repr

/-- The records a reader sends on its `rowsChan`, in order. -/
def ReaderOutput.rows (o : ReaderOutput) : List (List Bytes) :=
  o.steps.filterMap Step.record

/-- The lines a reader's loop reads, each with its start offset, in order. -/
def ReaderOutput.lines (o : ReaderOutput) : List (Int × Bytes) :=
  o.steps.map (fun s => (s.offset, s.line))

/-- The errors a reader sends on `errsChan`, in order. -/
def ReaderOutput.errs (thread : Int) (o : ReaderOutput) : List ReadError :=
  (o.steps.filterMap fun s =>
    match s.record with
    | none => some (ReadError.couldNotParseRow thread s.offset)
    | some _ => none) ++ o.readErr.toList

/-- The size of the buffer of `bufio.NewReaderSize(object, c.bufferSize)`: never less
than 16 bytes. -/
def bufioSize (bufferSize : Int) : Nat := max bufferSize.toNat 16

/-- The `ForLoop` of `readBetweenOffsetsAsync`, over the unread bytes `r`.  Every
iteration consumes at least one byte, so `r.length + 1` iterations always suffice. -/
def readLoop (c : convert) (thread offsetEnd : Int) :
    Nat → Bytes → Int → CsvReader → ReaderOutput
  | 0, _, _, _ => { steps := [], readErr := none }
  | fuel + 1, r, currentOffsetPos, csvReader =>
    match readLine (bufioSize c.bufferSize) r thread currentOffsetPos with
    | LineResult.stop err => { steps := [], readErr := err }
    | LineResult.line line rest =>
      let res := csvReader.Read c.parse line
      let step : Step := { offset := currentOffsetPos, line := line, record := res.1 }
      let currentOffsetPos := currentOffsetPos + line.length
      if currentOffsetPos - 1 > offsetEnd then { steps := [step], readErr := none }
      else
        let out := readLoop c thread offsetEnd fuel rest currentOffsetPos res.2
        { steps := step :: out.steps, readErr := out.readErr }

/-- Go: `func (c *convert) readBetweenOffsetsAsync(object, currentThreadNo, offsetStart,
offsetEnd, wg, rowsChan, errsChan)`.  `object.Seek(offsetStart)` leaves
`object.drop offsetStart` to read (a failing seek to a negative offset leaves the
position at 0). -/
def readBetweenOffsetsAsync (c : convert) (object : Bytes)
    (currentThreadNo offsetStart offsetEnd : Int) : ReaderOutput :=
  let r := object.drop offsetStart.toNat
  let csvReader : CsvReader := { FieldsPerRecord := c.sheetOption.GetColumnLength }
  if currentThreadNo ≠ 1 ∨ c.hasHeaderFile = true then
    match readLine (bufioSize c.bufferSize) r currentThreadNo offsetStart with
    | LineResult.stop err => { steps := [], readErr := err }
    | LineResult.line line rest =>
      readLoop c currentThreadNo offsetEnd (rest.length + 1) rest
        (offsetStart + line.length) csvReader
  else
    readLoop c currentThreadNo offsetEnd (r.length + 1) r offsetStart csvReader

/-- The calls of `readBetweenOffsetsAsync` made by `readAsync`, for the ranges from
index `thread` on: thread numbers are the range indices plus one. -/
def readAsyncFrom (c : convert) (object : Bytes) : Nat → List (Int × Int) → List ReaderOutput
  | _, [] => []
  | thread, r :: rs =>
    readBetweenOffsetsAsync c object ((thread : Int) + 1) r.1 r.2 ::
      readAsyncFrom c object (thread + 1) rs

/-- Go: `func (c *convert) readAsync(object, threadsInfo, rowsChannels, errsChan)`: one
reader per range, each with its own `rowsChannels[thread]`.  The result lists what is
sent on each channel, by range index. -/
def readAsync (c : convert) (object : Bytes) (threadsInfo : List (Int × Int)) :
    List ReaderOutput :=
  readAsyncFrom c object 0 threadsInfo

/-- Go: `func (c *convert) getFileSize(object *minio.Object) (int, error)`, where `stat`
is the size reported by `object.Stat()`, or `none` if `Stat` fails.  `none` is an error
(`ErrEmptyCSVFile` when the size is below 1). -/
def getFileSize (stat : Option Int) : Option Int :=
  match stat with
  | none => none
  | some size => if size < 1 then none else some size

/-- Go: `const minBytesToReadByAGoroutine = 4 * 128`. -/
def minBytesToReadByAGoroutine : Int := 4 * 128

/-- Go: `func (c *convert) read(object) ([]<-chan []string, ErrsChan)`: what is sent on
each of the returned row channels, and what `read` itself sends on the error channel. -/
def read (c : convert) (stat : Option Int) (object : Bytes) :
    List ReaderOutput × List ReadError :=
  match getFileSize stat with
  | none => ([], [ReadError.fileSize])
  | some size =>
    (readAsync c object
      (computeGoroutineOffsets size c.maxGoroutineUses minBytesToReadByAGoroutine), [])

/-! ## Chunk assembler and merger (`convert.go`, `worker` and `Convert`) -/

/-- An `*os.File` opened by `os.CreateTemp` (read-write, not in append mode): its bytes
and its read/write offset. -/
structure File where
  data : Bytes
  offset : Nat
  deriving DecidableEq, Repr

/-- Go: `(*os.File).Write`: the bytes are stored at the current offset, replacing what
is there and growing the file as needed (a gap past the end reads as zero bytes); the
offset moves past them. -/
def File.Write (f : File) (b : Bytes) : File :=
  { data := f.data.take f.offset ++ List.replicate (f.offset - f.data.length) (Char.ofNat 0)
      ++ b ++ f.data.drop (f.offset + b.length),
    offset := f.offset + b.length }

/-- Go: `(*os.File).Seek(offset, io.SeekStart)`. -/
def File.Seek (f : File) (offset : Nat) : File :=
  { f with offset := offset }

/-- Go: `(*os.File).Read(buffer)` for a buffer of one byte: the byte at the offset is
stored in the buffer and the offset moves by one; at the end of the file the buffer and
the offset are left as they are. -/
def File.Read (f : File) (buffer : Bytes) : Bytes × File :=
  match f.data[f.offset]? with
  | some b => ([b], { f with offset := f.offset + 1 })
  | none => (buffer, f)

/-- The `for rows := range readChannels` loop of `worker`: the bytes written to the
worker's own temp file.  `none`: `ValidateRow` panicked, which ends the program. -/
def workerLoop (so : SheetOption) : List (List Bytes) → Bool → Bytes → Option Bytes
  | [], _, temp => some temp
  | rows :: rest, isFirst, temp =>
    match so.ValidateRow rows with
    | RowResult.error _ => workerLoop so rest isFirst temp
    | RowResult.indexPanic => none
    | RowResult.ok value =>
      if isFirst then workerLoop so rest false (temp ++ value)
      else workerLoop so rest false (temp ++ [','] ++ value)

/-- The critical section of `worker` (between `mutex.Lock()` and `mutex.Unlock()`):
`temp` holds the bytes of the worker's temp file, rewound to its start.
`string(buffer) != ""` is `buffer ≠ []`, for a `buffer` made with length 1. -/
def mergeChunk (baseTemp : File) (temp : Bytes) : File :=
  let buffer : Bytes := [Char.ofNat 0]
  let baseTemp := baseTemp.Seek 1
  let res := baseTemp.Read buffer
  let baseTemp := if res.1 ≠ [] then res.2.Write [','] else res.2
  baseTemp.Write temp

/-- The destination file of `Convert` after `temp.Write([]byte("["))`. -/
def openBase : File := File.Write { data := [], offset := 0 } ['[']

/-- The destination file after the workers have merged `chunks`, one after another in
this order, starting from `base`. -/
def mergeAll (base : File) (chunks : List Bytes) : File :=
  chunks.foldl mergeChunk base

/-- The destination file when `Convert` hands it to `PutObject`: opened with `[`, the
chunks merged in the order the workers took the mutex, then `temp.Write([]byte("]"))`. -/
def finalize (chunks : List Bytes) : File :=
  (mergeAll openBase chunks).Write [']']

/-- An error returned by `Convert`. -/
inductive ConvertError where
  | putObject
  deriving DecidableEq, Repr

/-- What a call of `Convert` does that can be observed outside of it. -/
structure ConvertResult where
  err : Option ConvertError
  workers : Nat
  printed : List ReadError
  sink : Option Bytes
  deriving DecidableEq, Repr

/-- Go: `func (c *convert) worker(readChannels, baseTemp, wg, mutex)`: drain the rows of
the channel into the worker's own temp file, then merge it into `baseTemp` under the
mutex.  `none`: `ValidateRow` panicked. -/
def convert.worker (c : convert) (readChannels : List (List Bytes)) (baseTemp : File) :
    Option File :=
  match workerLoop c.sheetOption readChannels true [] with
  | none => none
  | some temp => some (mergeChunk baseTemp temp)

/-- The destination file after the workers of the channels listed in `order` have taken
the mutex in this order (an index without channel starts no worker). -/
def runWorkers (c : convert) (channels : List ReaderOutput) : List Nat → File → Option File
  | [], baseTemp => some baseTemp
  | i :: order, baseTemp =>
    match channels[i]? with
    | none => runWorkers c channels order baseTemp
    | some ch =>
      match c.worker ch.rows baseTemp with
      | none => none
      | some merged => runWorkers c channels order merged

/-- The errors `Convert` prints: those sent by `read`, then those of the readers. -/
def collectErrs (r : List ReaderOutput × List ReadError) : List ReadError :=
  r.2 ++ (r.1.enum.map (fun p => p.2.errs ((p.1 : Int) + 1))).flatten

/-- Go: `func (c *convert) Convert() error`, for an object whose `Stat` reports `stat`
and whose bytes are `object`.  `order` lists the worker indices in the order in which
the workers take the mutex; `putObject` is the sink.  Creating and writing the temp
files is taken to succeed.  `none`: a worker panicked. -/
def convert.Convert (c : convert) (stat : Option Int) (object : Bytes) (order : List Nat)
    (putObject : Bytes → Option ConvertError) : Option ConvertResult :=
  let temp := openBase
  let r := read c stat object
  match runWorkers c r.1 order temp with
  | none => none
  | some temp =>
    let temp := temp.Write [']']
    some { err := putObject temp.data,
           workers := r.1.length,
           printed := collectErrs r,
           sink := match putObject temp.data with
             | none => some temp.data
             | some _ => none }

/-! ## The lines of a file, as the reader's contract speaks of them -/

/-- The record `encoding/csv` makes of a line when `FieldsPerRecord` is the positive
number of columns of the schema (`none`: an error is reported instead). -/
def csvRecord (c : convert) (line : Bytes) : Option (List Bytes) :=
  (CsvReader.Read c.parse { FieldsPerRecord := c.sheetOption.GetColumnLength } line).1

/-! ## Concrete inputs used to instantiate the theorems -/

/-- Split a line without quotes at every comma. -/
def splitAtCommas : Bytes → Bytes → List Bytes
  | acc, [] => [acc.reverse]
  | acc, ch :: cs =>
    if ch = ',' then acc.reverse :: splitAtCommas [] cs else splitAtCommas (ch :: acc) cs

/-- What `encoding/csv` makes of a line that holds no quote and no carriage return: no
record for an empty line, otherwise the fields between the commas, the line terminator
removed. -/
def plainCsv (line : Bytes) : Parsed :=
  if line.filter (fun ch => ch ≠ newline) = [] then Parsed.eof
  else Parsed.record (splitAtCommas [] (line.filter (fun ch => ch ≠ newline)))

/-- A validator that accepts every value. -/
def acceptAll : Validator := fun _ _ => none

/-- A converter for a schema of `columns`, reading plain CSV through a buffer of
`bufferSize` bytes. -/
def plainConvert (columns : List Column) (hasHeaderFile : Bool) (bufferSize : Int) : convert :=
  { sheetOption := NewSheetOption acceptAll columns,
    maxGoroutineUses := 4,
    hasHeaderFile := hasHeaderFile,
    bufferSize := bufferSize,
    parse := plainCsv }

/-- The schema of one column named `v` with the rule `required`. -/
def oneColumn : List Column :=
  [{ Name := "v".toList, Rules := "required".toList, isNoQuoteJson := false }]

/-- The bytes of a text followed by a line terminator. -/
def ln (s : String) : Bytes := s.toList ++ [newline]

/-- A text between two double quotes. -/
def quoted (s : String) : Bytes := dquote :: s.toList ++ [dquote]

/-- The fragment of a record of the schema `oneColumn`: the object with the one member
`v` whose value is the quoted text. -/
def objectV (s : String) : Bytes := '{' :: quoted "v" ++ ':' :: quoted s ++ ['}']

/-- The schema of the spec's example: `id` with the rule `numeric`, `name` with the rule
`required`. -/
def idName : List Column :=
  [{ Name := "id".toList, Rules := "numeric".toList, isNoQuoteJson := false },
   { Name := "name".toList, Rules := "required".toList, isNoQuoteJson := false }]

/-- The file of the spec's example: a header and two records. -/
def peopleCsv : Bytes := ln "id,name" ++ ln "1,Alice" ++ ln "2,Bob"

/-- A sink that accepts every object. -/
def sinkOk : Bytes → Option ConvertError := fun _ => none

/-! ## The fragment of a record, as the spec words it -/

/-- Texts joined by single commas. -/
def joinCommas : List Bytes → Bytes
  | [] => []
  | [p] => p
  | p :: q :: ps => p ++ [','] ++ joinCommas (q :: ps)

/-- The pair `"name":value`: the name between double quotes, the value as it is if
`unquoted`, and between double quotes otherwise. -/
def renderPair (name : Bytes) (unquoted : Bool) (field : Bytes) : Bytes :=
  [dquote] ++ name ++ [dquote] ++ [':'] ++
    (if unquoted then field else [dquote] ++ field ++ [dquote])

/-- The fragment of a record: the pairs of its columns and fields, in column order,
joined by commas, between braces.  `unquoted` tells which columns render unquoted. -/
def specFragment (unquoted : Column → Bool) (columns : List Column) (record : List Bytes) :
    Bytes :=
  ['{'] ++ joinCommas (List.zipWith (fun col field => renderPair col.Name (unquoted col) field)
    columns record) ++ ['}']

/-- The rules of a column: the texts between the commas of `Rules`. -/
def ruleList (rules : Bytes) : List Bytes := splitAtCommas [] rules

/-- The claim's reading of "marks it numeric/boolean": one of the rules of the column is
`numeric`, `number` or `bool`. -/
def hasNumericRule (col : Column) : Bool :=
  (ruleList col.Rules).any
    (fun r => r = "numeric".toList || r = "number".toList || r = "bool".toList)

/-- What the code tests: the text of `Rules` contains `numeric`, `number` or `bool`
somewhere. -/
def rulesMention (col : Column) : Bool :=
  Contains col.Rules "numeric".toList || Contains col.Rules "number".toList ||
    Contains col.Rules "bool".toList

/-- What the loop of `ValidateRow` appends for the columns from index `idx` on. -/
def pairsFrom : Nat → List Column → List Bytes → Bytes
  | idx, col :: cols, field :: fields =>
    (if idx > 0 then [','] else []) ++ col.nameValue ++ [':'] ++ col.writeValue field ++
      pairsFrom (idx + 1) cols fields
  | _, _, _ => []

/-- A schema whose only column accepts one of two words, one of them `number`. -/
def kindColumn : List Column :=
  [{ Name := "kind".toList, Rules := "oneof=number text".toList, isNoQuoteJson := false }]

/-! ## JSON texts (RFC 8259)

A recogniser for the JSON objects whose member values are strings, numbers, `true`,
`false` or `null`, with optional white space between the tokens. -/

/-- The backslash (byte 92). -/
def backslash : Char := Char.ofNat 92

/-- JSON white space: space, tab, line feed, carriage return. -/
def isWs (ch : Char) : Bool :=
  ch = ' ' || ch = Char.ofNat 9 || ch = Char.ofNat 10 || ch = Char.ofNat 13

/-- Drop leading white space. -/
def skipWs : Bytes → Bytes
  | [] => []
  | ch :: cs => if isWs ch then skipWs cs else ch :: cs

/-- A hexadecimal digit. -/
def isHexDigit (ch : Char) : Bool :=
  ch.isDigit || ('a'.toNat ≤ ch.toNat && ch.toNat ≤ 'f'.toNat) ||
    ('A'.toNat ≤ ch.toNat && ch.toNat ≤ 'F'.toNat)

/-- Scan a JSON string after its opening quote and return what follows its closing
quote.  State 0: between characters; state 1: after a backslash; state `k + 2`: `k + 1`
hexadecimal digits of a `\u` escape are still expected.  A control character, an unknown
escape or the end of the text inside the string is an error. -/
def scanString : Nat → Bytes → Option Bytes
  | _, [] => none
  | 0, ch :: cs =>
    if ch = dquote then some cs
    else if ch = backslash then scanString 1 cs
    else if ch.toNat < 32 then none
    else scanString 0 cs
  | 1, ch :: cs =>
    if ch = 'u' then scanString 5 cs
    else if ch ∈ [dquote, backslash, '/', 'b', 'f', 'n', 'r', 't'] then scanString 0 cs
    else none
  | k + 2, ch :: cs =>
    if isHexDigit ch then scanString (if k = 0 then 0 else k + 1) cs else none

/-- One step of the automaton of JSON numbers: `-`? then `0` or a digit 1-9 and digits,
then optionally `.` and digits, then optionally `e` or `E`, a sign and digits.  States:
0 start, 1 after `-`, 2 after the leading `0`, 3 in the integer digits, 4 after `.`,
5 in the fraction digits, 6 after `e`, 7 after the sign of the exponent, 8 in the
exponent digits. -/
def numberStep : Nat → Char → Option Nat
  | 0, ch => if ch = '-' then some 1 else if ch = '0' then some 2
             else if ch.isDigit then some 3 else none
  | 1, ch => if ch = '0' then some 2 else if ch.isDigit then some 3 else none
  | 2, ch => if ch = '.' then some 4 else if ch = 'e' ∨ ch = 'E' then some 6 else none
  | 3, ch => if ch.isDigit then some 3 else if ch = '.' then some 4
             else if ch = 'e' ∨ ch = 'E' then some 6 else none
  | 4, ch => if ch.isDigit then some 5 else none
  | 5, ch => if ch.isDigit then some 5 else if ch = 'e' ∨ ch = 'E' then some 6 else none
  | 6, ch => if ch = '+' ∨ ch = '-' then some 7 else if ch.isDigit then some 8 else none
  | 7, ch => if ch.isDigit then some 8 else none
  | 8, ch => if ch.isDigit then some 8 else none
  | _, _ => none

/-- Run the automaton of JSON numbers from a state; the accepting states are 2, 3, 5, 8. -/
def numberRun : Nat → Bytes → Bool
  | st, [] => st = 2 || st = 3 || st = 5 || st = 8
  | st, ch :: cs =>
    match numberStep st ch with
    | none => false
    | some st' => numberRun st' cs

/-- A well-formed JSON number. -/
def isJsonNumber (s : Bytes) : Bool := numberRun 0 s

/-- A JSON value that is not a string, an object or an array. -/
def isScalar (tok : Bytes) : Bool :=
  tok = "true".toList || tok = "false".toList || tok = "null".toList || isJsonNumber tok

/-- A character that ends a number or a literal inside an object. -/
def endsToken (ch : Char) : Bool := ch = ',' || ch = '}' || isWs ch

/-- The characters up to the next one that ends a token, and the rest. -/
def scanToken : Bytes → Bytes × Bytes
  | [] => ([], [])
  | ch :: cs =>
    if endsToken ch then ([], ch :: cs) else (ch :: (scanToken cs).1, (scanToken cs).2)

/-- Scan one value (a string, a number or a literal) and return what follows it. -/
def scanValue : Bytes → Option Bytes
  | [] => none
  | ch :: cs =>
    if ch = dquote then scanString 0 cs
    else if isScalar (scanToken (ch :: cs)).1 then some (scanToken (ch :: cs)).2
    else none

/-- Scan one member `string : value` and return what follows it. -/
def scanMember (s : Bytes) : Option Bytes :=
  match skipWs s with
  | [] => none
  | ch :: cs =>
    if ch = dquote then
      match scanString 0 cs with
      | none => none
      | some r =>
        match skipWs r with
        | [] => none
        | ch' :: r' => if ch' = ':' then scanValue (skipWs r') else none
    else none

/-- Scan the members of an object up to its closing brace; nothing but white space may
follow.  Every member consumes a byte, so a fuel of the length of the text suffices. -/
def scanMembers : Nat → Bytes → Bool
  | 0, _ => false
  | fuel + 1, s =>
    match scanMember s with
    | none => false
    | some r =>
      match skipWs r with
      | [] => false
      | ch :: r' =>
        if ch = ',' then scanMembers fuel r'
        else if ch = '}' then decide (skipWs r' = [])
        else false

/-- The text is a JSON object whose member values are strings, numbers or literals. -/
def isJsonObject (s : Bytes) : Bool :=
  match skipWs s with
  | [] => false
  | ch :: r =>
    if ch = '{' then
      match skipWs r with
      | [] => false
      | ch' :: r' => if ch' = '}' then decide (skipWs r' = []) else scanMembers s.length r
    else false

/-- A text that needs no escaping inside a JSON string: it has no double quote, no
backslash and no control character. -/
def plainText (s : Bytes) : Prop :=
  ∀ ch ∈ s, ch ≠ dquote ∧ ch ≠ backslash ∧ 32 ≤ ch.toNat

/-- A well-formed JSON number or boolean. -/
def isNumberOrBool (s : Bytes) : Prop :=
  isJsonNumber s = true ∨ s = "true".toList ∨ s = "false".toList

instance (s : Bytes) : Decidable (plainText s) := by
  unfold plainText; infer_instance

instance (s : Bytes) : Decidable (isNumberOrBool s) := by
  unfold isNumberOrBool; infer_instance

/-- A field value with a double quote in it: `a"b`. -/
def quoteInside : Bytes := ['a', dquote, 'b']

/-! ## Theorems: offset planner -/

theorem distributeLoop_eq (b : Int) : ∀ (k : Nat) (s : Int),
    distributeLoop b k s (s + b - 1) =
      ((List.range k).map (fun j : Nat => (s + (j : Int) * b, s + ((j : Int) + 1) * b - 1)),
        s + (k : Int) * b)
  | 0, s => by simp [distributeLoop]
  | k + 1, s => by
    have h1 : s + b - 1 + 1 = s + b := by ring
    have h2 : s + b - 1 + b = (s + b) + b - 1 := by ring
    simp only [distributeLoop, h1, h2, distributeLoop_eq b k (s + b)]
    rw [List.range_succ_eq_map]
    simp only [List.map_cons, List.map_map, Prod.mk.injEq, List.cons.injEq]
    refine ⟨⟨⟨by simp, by simp⟩, ?_⟩, by push_cast; ring⟩
    apply List.map_congr_left
    intro j _
    simp only [Function.comp, Prod.mk.injEq]
    constructor <;> (push_cast; ring)

theorem specRanges_one (T maxP minB : Int) (h : specUnitCount T maxP minB = 1) :
    specRanges T maxP minB = [(0, T - 1)] := by
  simp [specRanges, h, specRange, List.range_succ]

theorem computeGoroutineOffsets_unfold (T maxG minB : Int) :
    computeGoroutineOffsets T maxG minB =
      if T ≤ 0 then []
      else if T ≤ clampToOne minB then [(0, T - 1)]
      else if Int.tdiv T (clampToOne minB) = 1 then [(0, T - 1)]
      else
        (distributeLoop
          (Int.tdiv T (if Int.tdiv T (clampToOne minB) > clampToOne maxG then clampToOne maxG
            else Int.tdiv T (clampToOne minB)))
          ((if Int.tdiv T (clampToOne minB) > clampToOne maxG then clampToOne maxG
            else Int.tdiv T (clampToOne minB)) - 1).toNat 0
          (Int.tdiv T (if Int.tdiv T (clampToOne minB) > clampToOne maxG then clampToOne maxG
            else Int.tdiv T (clampToOne minB)) - 1)).1 ++
        [((distributeLoop
          (Int.tdiv T (if Int.tdiv T (clampToOne minB) > clampToOne maxG then clampToOne maxG
            else Int.tdiv T (clampToOne minB)))
          ((if Int.tdiv T (clampToOne minB) > clampToOne maxG then clampToOne maxG
            else Int.tdiv T (clampToOne minB)) - 1).toNat 0
          (Int.tdiv T (if Int.tdiv T (clampToOne minB) > clampToOne maxG then clampToOne maxG
            else Int.tdiv T (clampToOne minB)) - 1)).2, T - 1)] := rfl

theorem clampToOne_pos (x : Int) : 0 < clampToOne x := by
  unfold clampToOne; split <;> omega

theorem computeGoroutineOffsets_eq_spec (T maxG minB : Int) (hT : 0 < T) :
    computeGoroutineOffsets T maxG minB = specRanges T (clampToOne maxG) (clampToOne minB) := by
  have hm : 0 < clampToOne minB := clampToOne_pos _
  have hg : 0 < clampToOne maxG := clampToOne_pos _
  rw [computeGoroutineOffsets_unfold]
  generalize clampToOne minB = m at *
  generalize clampToOne maxG = g at *
  have hdiv : Int.tdiv T m = T / m := Int.tdiv_eq_ediv hT.le hm.le
  rw [if_neg (by omega), hdiv]
  by_cases h1 : T ≤ m
  · rw [if_pos h1, specRanges_one]
    simp [specUnitCount, h1]
  rw [if_neg h1]
  by_cases h2 : T / m = 1
  · rw [if_pos h2, specRanges_one]
    simp [specUnitCount, h2]
  rw [if_neg h2]
  have hq : 1 ≤ T / m := Int.le_ediv_of_mul_le hm (by omega : 1 * m ≤ T)
  have hn : specUnitCount T g m = (if T / m > g then g else T / m) := by
    unfold specUnitCount
    rw [if_neg (by push_neg; exact ⟨by omega, h2⟩)]
    split <;> omega
  unfold specRanges
  rw [hn]
  generalize hn' : (if T / m > g then g else T / m) = n
  have hn1 : 1 ≤ n := by rw [← hn']; split <;> omega
  have hb : Int.tdiv T n = T / n := Int.tdiv_eq_ediv hT.le (by omega)
  rw [hb]
  have h0 : T / n - 1 = 0 + T / n - 1 := by ring
  rw [h0, distributeLoop_eq]
  have hk : n.toNat = (n - 1).toNat + 1 := by omega
  simp only []
  rw [hk, List.range_succ, List.map_append]
  simp only [List.map_cons, List.map_nil]
  congr 1
  · apply List.map_congr_left
    intro j hj
    have hj' : (j : Int) < n - 1 := by
      have := List.mem_range.1 hj
      omega
    simp [specRange, hj']
  · have hk' : (((n - 1).toNat : Nat) : Int) = n - 1 := by omega
    simp only [specRange, hk', lt_irrefl, if_false, zero_add]

theorem tilesFrom_cons {lo hi : Int} {r : Int × Int} {rs : List (Int × Int)} (h : rs ≠ []) :
    TilesFrom lo hi (r :: rs) ↔ r.1 = lo ∧ r.1 ≤ r.2 ∧ TilesFrom (r.2 + 1) hi rs := by
  cases rs with
  | nil => exact absurd rfl h
  | cons r' rs => simp [TilesFrom]

theorem tilesFrom_ne_nil {lo hi : Int} {rs : List (Int × Int)} (h : TilesFrom lo hi rs) :
    rs ≠ [] := by
  intro h0; subst h0; exact h

theorem tilesFrom_head {lo hi : Int} : ∀ {rs : List (Int × Int)}, TilesFrom lo hi rs →
    rs.head?.map Prod.fst = some lo
  | [], h => h.elim
  | [r], h => by simp [h.1]
  | r :: r' :: rs, h => by simp [h.1]

theorem tilesFrom_last : ∀ {rs : List (Int × Int)} {lo hi : Int}, TilesFrom lo hi rs →
    rs.getLast?.map Prod.snd = some hi
  | [], _, _, h => h.elim
  | [r], _, _, h => by simp [h.2.1]
  | r :: r' :: rs, _, _, h => by
    have := tilesFrom_last h.2.2
    simpa [List.getLast?_cons_cons] using this

theorem tilesFrom_bounds : ∀ {rs : List (Int × Int)} {lo hi : Int}, TilesFrom lo hi rs →
    ∀ r ∈ rs, lo ≤ r.1 ∧ r.1 ≤ r.2 ∧ r.2 ≤ hi
  | [], _, _, h => h.elim
  | [r], _, _, h => by
    intro x hx
    simp only [List.mem_singleton] at hx
    subst hx
    obtain ⟨h1, h2, h3⟩ := h
    omega
  | r :: r' :: rs, _, _, h => by
    intro x hx
    obtain ⟨h1, h2, h3⟩ := h
    have ih := tilesFrom_bounds h3
    rcases List.mem_cons.1 hx with hx | hx
    · subst hx
      have := ih r' (List.mem_cons_self _ _)
      omega
    · have := ih x hx
      omega

theorem tilesFrom_chain : ∀ {rs : List (Int × Int)} {lo hi : Int}, TilesFrom lo hi rs →
    rs.Chain' (fun a b => b.1 = a.2 + 1)
  | [], _, _, h => h.elim
  | [r], _, _, _ => List.chain'_singleton _
  | r :: r' :: rs, _, _, h => by
    obtain ⟨_, _, h3⟩ := h
    refine List.chain'_cons.2 ⟨?_, tilesFrom_chain h3⟩
    have := tilesFrom_head h3
    simpa using this

theorem tilesFrom_cover : ∀ {rs : List (Int × Int)} {lo hi : Int}, TilesFrom lo hi rs →
    ∀ x : Int, lo ≤ x → x ≤ hi →
      ∃! i : Nat, ∃ r, rs[i]? = some r ∧ r.1 ≤ x ∧ x ≤ r.2
  | [], _, _, h => h.elim
  | [r], lo, hi, h => by
    intro x hlo hhi
    obtain ⟨h1, h2, h3⟩ := h
    refine ⟨0, ⟨r, by simp, by omega, by omega⟩, ?_⟩
    rintro j ⟨r', hj, _⟩
    cases j with
    | zero => rfl
    | succ j => simp at hj
  | r :: r' :: rs, lo, hi, h => by
    intro x hlo hhi
    obtain ⟨h1, h2, h3⟩ := h
    by_cases hx : x ≤ r.2
    · refine ⟨0, ⟨r, by simp, by omega, hx⟩, ?_⟩
      rintro j ⟨q, hj, hq1, hq2⟩
      cases j with
      | zero => rfl
      | succ j =>
        simp only [List.getElem?_cons_succ] at hj
        have := tilesFrom_bounds h3 q (List.getElem?_mem hj)
        omega
    · obtain ⟨i, ⟨q, hi1, hi2⟩, huniq⟩ := tilesFrom_cover h3 x (by omega) hhi
      refine ⟨i + 1, ⟨q, by simpa using hi1, hi2⟩, ?_⟩
      rintro j ⟨q', hj, hq1, hq2⟩
      cases j with
      | zero =>
        simp only [List.getElem?_cons_zero, Option.some.injEq] at hj
        subst hj
        omega
      | succ j =>
        simp only [List.getElem?_cons_succ] at hj
        have := huniq j ⟨q', hj, hq1, hq2⟩
        omega

theorem distributeLoop_tiles (b hi : Int) (hb : 1 ≤ b) : ∀ (k : Nat) (s : Int),
    s + (k : Int) * b ≤ hi →
    TilesFrom s hi ((distributeLoop b k s (s + b - 1)).1 ++
      [((distributeLoop b k s (s + b - 1)).2, hi)])
  | 0, s, h => by
    simp only [distributeLoop, List.nil_append, TilesFrom]
    exact ⟨trivial, trivial, by simpa using h⟩
  | k + 1, s, h => by
    have h1 : s + b - 1 + 1 = s + b := by ring
    have h2 : s + b - 1 + b = (s + b) + b - 1 := by ring
    simp only [distributeLoop, h1, h2, List.cons_append]
    rw [tilesFrom_cons (by simp)]
    refine ⟨rfl, by simp only; omega, ?_⟩
    simp only [h1]
    apply distributeLoop_tiles b hi hb k (s + b)
    push_cast at h
    linarith

theorem computeGoroutineOffsets_tiles (T maxG minB : Int) (hT : 0 < T) :
    TilesFrom 0 (T - 1) (computeGoroutineOffsets T maxG minB) := by
  have hm : 0 < clampToOne minB := clampToOne_pos _
  have hg : 0 < clampToOne maxG := clampToOne_pos _
  rw [computeGoroutineOffsets_unfold]
  generalize clampToOne minB = m at *
  generalize clampToOne maxG = g at *
  have hdiv : Int.tdiv T m = T / m := Int.tdiv_eq_ediv hT.le hm.le
  rw [if_neg (by omega), hdiv]
  have hone : TilesFrom 0 (T - 1) [(0, T - 1)] := ⟨rfl, rfl, by simp only; omega⟩
  by_cases h1 : T ≤ m
  · rw [if_pos h1]; exact hone
  rw [if_neg h1]
  by_cases h2 : T / m = 1
  · rw [if_pos h2]; exact hone
  rw [if_neg h2]
  have hq : 1 ≤ T / m := Int.le_ediv_of_mul_le hm (by omega : 1 * m ≤ T)
  have hqT : T / m ≤ T := Int.ediv_le_self _ hT.le
  generalize hn' : (if T / m > g then g else T / m) = n
  have hn1 : 1 ≤ n := by rw [← hn']; split <;> omega
  have hnT : n ≤ T := by rw [← hn']; split <;> omega
  have hb : Int.tdiv T n = T / n := Int.tdiv_eq_ediv hT.le (by omega)
  rw [hb]
  have hb1 : 1 ≤ T / n := Int.le_ediv_of_mul_le (by omega) (by omega : 1 * n ≤ T)
  have hmul : T / n * n ≤ T := Int.ediv_mul_le T (by omega)
  have h0 : T / n - 1 = 0 + T / n - 1 := by ring
  rw [h0]
  apply distributeLoop_tiles (T / n) (T - 1) hb1
  have hk' : (((n - 1).toNat : Nat) : Int) = n - 1 := by omega
  rw [hk']
  nlinarith

/-! ## Theorems: lines and the reading loop -/

theorem csvRead_state (parse : Bytes → Parsed) (r : CsvReader) (h : 0 < r.FieldsPerRecord)
    (line : Bytes) : (r.Read parse line).2 = r := by
  unfold CsvReader.Read
  split
  · rfl
  · rw [if_pos h]; split <;> rfl
  · rw [if_neg (by omega)]

theorem readLoop_records (c : convert) (t e : Int) (h : 0 < c.sheetOption.GetColumnLength) :
    ∀ (fuel : Nat) (r : Bytes) (pos : Int),
      ∀ step ∈ (readLoop c t e fuel r pos
        { FieldsPerRecord := c.sheetOption.GetColumnLength }).steps,
        step.record = csvRecord c step.line
  | 0, _, _ => by simp [readLoop]
  | fuel + 1, r, pos => by
    intro step hstep
    unfold readLoop at hstep
    split at hstep
    · simp at hstep
    · next line rest _ =>
      have hst := csvRead_state c.parse { FieldsPerRecord := c.sheetOption.GetColumnLength }
        h line
      simp only at hstep
      split at hstep
      · simp only [List.mem_singleton] at hstep
        subst hstep
        rfl
      · rcases List.mem_cons.1 hstep with h1 | h1
        · subst h1; rfl
        · rw [hst] at h1
          exact readLoop_records c t e h fuel rest _ step h1

theorem reader_records (c : convert) (data : Bytes) (t s e : Int)
    (h : 0 < c.sheetOption.GetColumnLength) :
    ∀ step ∈ (readBetweenOffsetsAsync c data t s e).steps,
      step.record = csvRecord c step.line := by
  intro step hstep
  unfold readBetweenOffsetsAsync at hstep
  simp only at hstep
  split at hstep
  · split at hstep
    · simp at hstep
    · exact readLoop_records c _ _ h _ _ _ step hstep
  · exact readLoop_records c _ _ h _ _ _ step hstep

theorem rows_eq_filterMap (c : convert) (out : ReaderOutput)
    (h : ∀ step ∈ out.steps, step.record = csvRecord c step.line) :
    out.rows = out.lines.filterMap (fun p => csvRecord c p.2) := by
  unfold ReaderOutput.rows ReaderOutput.lines
  rw [List.filterMap_map]
  apply List.filterMap_congr
  intro step hstep
  exact h step hstep

theorem columns_pos (c : convert) (h : c.sheetOption.columns ≠ []) :
    0 < c.sheetOption.GetColumnLength := by
  unfold SheetOption.GetColumnLength
  have := List.length_pos.2 h
  omega

theorem validateLoop_ok (so : SheetOption) (maxColumn : Int) :
    ∀ (cols : List Column) (pre fields : List Bytes) (bt : Bytes),
      fields.length = cols.length →
      ((pre.length + cols.length : Nat) : Int) ≤ maxColumn →
      (∀ (i : Nat) (col : Column) (field : Bytes), cols[i]? = some col → fields[i]? = some field →
        so.validator field col.Rules = none) →
      validateLoop so (pre ++ fields) maxColumn pre.length cols bt =
        RowResult.ok (bt ++ pairsFrom pre.length cols fields)
  | [], pre, fields, bt, _, _, _ => by
    cases fields <;> simp [validateLoop, pairsFrom]
  | col :: cols, pre, [], bt, h, _, _ => by simp at h
  | col :: cols, pre, field :: fields, bt, h, hmax, hpass => by
    have hget : (pre ++ field :: fields)[pre.length]? = some field := by
      rw [List.getElem?_append_right (le_refl _)]
      simp
    have hv : col.Validate so.validator field = none := hpass 0 col field (by simp) (by simp)
    have hlt : (pre.length : Int) < maxColumn := by
      simp only [List.length_cons] at hmax
      push_cast at hmax
      omega
    have ih := validateLoop_ok so maxColumn cols (pre ++ [field]) fields
      ((if pre.length > 0 ∧ (pre.length : Int) < maxColumn then bt ++ [','] else bt) ++
        col.nameValue ++ [':'] ++ col.writeValue field)
      (by simpa using h)
      (by simp only [List.length_append, List.length_cons, List.length_nil] at hmax ⊢
          push_cast at hmax ⊢; omega)
      (fun i c f hc hf => hpass (i + 1) c f (by simpa using hc) (by simpa using hf))
    simp only [List.append_assoc, List.singleton_append, List.length_append,
      List.length_singleton] at ih
    unfold validateLoop
    simp only [hget, hv, List.append_assoc, List.singleton_append]
    rw [ih]
    simp only [pairsFrom, hlt, and_true]
    split <;> simp

theorem pairsFrom_succ : ∀ (idx : Nat) (cols : List Column) (fields : List Bytes),
    pairsFrom (idx + 1) cols fields =
      ((List.zipWith (fun col field => renderPair col.Name col.isNoQuoteJson field)
        cols fields).map (fun p => ',' :: p)).flatten
  | _, [], _ => by simp [pairsFrom]
  | _, _ :: _, [] => by simp [pairsFrom]
  | idx, col :: cols, field :: fields => by
    rw [pairsFrom, pairsFrom_succ (idx + 1) cols fields]
    simp [renderPair, Column.nameValue, Column.writeValue, Column.withQuote]

theorem joinCommas_cons : ∀ (p : Bytes) (ps : List Bytes),
    joinCommas (p :: ps) = p ++ (ps.map (fun q => ',' :: q)).flatten
  | p, [] => by simp [joinCommas]
  | p, q :: ps => by
    rw [joinCommas, joinCommas_cons q ps]
    simp

theorem pairsFrom_zero (cols : List Column) (fields : List Bytes) :
    pairsFrom 0 cols fields =
      joinCommas (List.zipWith (fun col field => renderPair col.Name col.isNoQuoteJson field)
        cols fields) := by
  cases cols with
  | nil => simp [pairsFrom, joinCommas]
  | cons col cols =>
    cases fields with
    | nil => simp [pairsFrom, joinCommas]
    | cons field fields =>
      rw [pairsFrom, pairsFrom_succ]
      simp only [List.zipWith_cons_cons, joinCommas_cons]
      simp [renderPair, Column.nameValue, Column.writeValue, Column.withQuote]

theorem validateRow_ok (so : SheetOption) (record : List Bytes)
    (hlen : record.length = so.columns.length)
    (hpass : ∀ (i : Nat) (col : Column) (field : Bytes), so.columns[i]? = some col →
      record[i]? = some field → so.validator field col.Rules = none) :
    so.ValidateRow record =
      RowResult.ok (specFragment (fun col => col.isNoQuoteJson) so.columns record) := by
  have h := validateLoop_ok so so.GetColumnLength so.columns [] record ['{'] hlen
    (by simp [SheetOption.GetColumnLength]) hpass
  simp only [List.nil_append, List.length_nil] at h
  unfold SheetOption.ValidateRow
  rw [h, pairsFrom_zero]
  simp [specFragment]

theorem updateIsNoQuoteJson_eq (col : Column) : col.updateIsNoQuoteJson = rulesMention col := by
  simp [Column.updateIsNoQuoteJson, rulesMention, List.any, Bool.or_assoc]

theorem validateLoop_take (so : SheetOption) (rows : List Bytes) (maxColumn : Int) (n : Nat) :
    ∀ (cols : List Column) (idx : Nat) (bt : Bytes), idx + cols.length ≤ n →
      validateLoop so rows maxColumn idx cols bt =
        validateLoop so (rows.take n) maxColumn idx cols bt
  | [], _, _, _ => by simp [validateLoop]
  | col :: cols, idx, bt, h => by
    have hidx : idx < n := by simp only [List.length_cons] at h; omega
    unfold validateLoop
    rw [List.getElem?_take_of_lt hidx]
    cases rows[idx]? with
    | none => rfl
    | some row =>
      simp only
      cases col.Validate so.validator row with
      | some err => rfl
      | none =>
        simp only
        exact validateLoop_take so rows maxColumn n cols (idx + 1) _
          (by simp only [List.length_cons] at h; omega)

theorem validateLoop_short (so : SheetOption) (rows : List Bytes) (maxColumn : Int) :
    ∀ (cols : List Column) (idx : Nat) (bt : Bytes), idx ≤ rows.length →
      rows.length < idx + cols.length →
      ∀ frag, validateLoop so rows maxColumn idx cols bt ≠ RowResult.ok frag
  | [], idx, _, h1, h2 => by simp at h2; omega
  | col :: cols, idx, bt, h1, h2 => by
    intro frag
    unfold validateLoop
    cases hrow : rows[idx]? with
    | none => simp
    | some row =>
      simp only
      cases col.Validate so.validator row with
      | some err => simp
      | none =>
        simp only
        have hlt : idx < rows.length := by
          by_contra hcon
          rw [List.getElem?_eq_none (by omega)] at hrow
          cases hrow
        exact validateLoop_short so rows maxColumn cols (idx + 1) _ (by omega)
          (by simp only [List.length_cons] at h2; omega) frag

theorem csvRecord_length (c : convert) (h : 0 < c.sheetOption.GetColumnLength) (line : Bytes)
    (record : List Bytes) (hrec : csvRecord c line = some record) :
    (record.length : Int) = c.sheetOption.GetColumnLength := by
  unfold csvRecord CsvReader.Read at hrec
  split at hrec
  · simp at hrec
  · rw [if_pos h] at hrec
    split at hrec
    · simp at hrec
    · next hne =>
      simp only [Option.some.injEq] at hrec
      subst hrec
      simpa using hne
  · split at hrec <;> simp at hrec

/-! ## Theorems: fragments that are JSON objects -/

theorem skipWs_cons_of_not {ch : Char} (cs : Bytes) (h : isWs ch = false) :
    skipWs (ch :: cs) = ch :: cs := by
  simp [skipWs, h]

theorem scanString_plain : ∀ (s rest : Bytes), plainText s →
    scanString 0 (s ++ dquote :: rest) = some rest
  | [], rest, _ => by simp [scanString]
  | ch :: cs, rest, h => by
    have hc := h ch (List.mem_cons_self _ _)
    have ih := scanString_plain cs rest (fun c hc' => h c (List.mem_cons_of_mem _ hc'))
    rw [List.cons_append]
    simp only [scanString, if_neg hc.1, if_neg hc.2.1, if_neg (not_lt.2 hc.2.2)]
    exact ih

theorem numberStep_none (ch : Char) (h0 : ch.isDigit = false) (h1 : ch ≠ '-') (h2 : ch ≠ '+')
    (h3 : ch ≠ '.') (h4 : ch ≠ 'e') (h5 : ch ≠ 'E') (h6 : ch ≠ '0') :
    ∀ st, numberStep st ch = none := by
  intro st
  unfold numberStep
  split <;> simp [*]

theorem numberStep_char {st st' : Nat} {ch : Char} (h : numberStep st ch = some st') :
    endsToken ch = false ∧ ch ≠ dquote := by
  by_contra hcon
  have hch : ch = ',' ∨ ch = '}' ∨ ch = ' ' ∨ ch = Char.ofNat 9 ∨ ch = Char.ofNat 10 ∨
      ch = Char.ofNat 13 ∨ ch = dquote := by
    by_contra hne
    apply hcon
    simp only [not_or] at hne
    simp [endsToken, isWs, hne]
  have hnone : numberStep st ch = none := by
    rcases hch with h | h | h | h | h | h | h <;> subst h <;>
      exact numberStep_none _ (by decide) (by decide) (by decide) (by decide) (by decide)
        (by decide) (by decide) st
  rw [hnone] at h
  cases h

theorem numberRun_chars : ∀ (s : Bytes) (st : Nat), numberRun st s = true →
    ∀ ch ∈ s, endsToken ch = false ∧ ch ≠ dquote
  | [], _, _ => by simp
  | c :: cs, st, h => by
    unfold numberRun at h
    cases hst : numberStep st c with
    | none => rw [hst] at h; simp at h
    | some st' =>
      rw [hst] at h
      intro ch hch
      rcases List.mem_cons.1 hch with e | e
      · subst e; exact numberStep_char hst
      · exact numberRun_chars cs st' h ch e

theorem numberOrBool_chars {v : Bytes} (h : isNumberOrBool v) :
    v ≠ [] ∧ isScalar v = true ∧ ∀ ch ∈ v, endsToken ch = false ∧ ch ≠ dquote := by
  rcases h with h | h | h
  · refine ⟨?_, by simp [isScalar, h], numberRun_chars v 0 h⟩
    intro h0; subst h0; simp [isJsonNumber, numberRun] at h
  · subst h; exact ⟨by decide, by decide, by decide⟩
  · subst h; exact ⟨by decide, by decide, by decide⟩

theorem scanToken_append : ∀ (v : Bytes) (d : Char) (rest : Bytes),
    (∀ ch ∈ v, endsToken ch = false) → endsToken d = true →
    scanToken (v ++ d :: rest) = (v, d :: rest)
  | [], d, rest, _, hd => by simp [scanToken, hd]
  | c :: cs, d, rest, hv, hd => by
    have hc := hv c (List.mem_cons_self _ _)
    have ih := scanToken_append cs d rest (fun x hx => hv x (List.mem_cons_of_mem _ hx)) hd
    simp [scanToken, hc, ih]

theorem endsToken_not_ws {ch : Char} (h : endsToken ch = false) : isWs ch = false := by
  simp only [endsToken, Bool.or_eq_false_iff] at h
  exact h.2

/-- The value of a pair as `writeValue` renders it is scanned as one JSON value. -/
theorem scanValue_rendered (unquoted : Bool) (field : Bytes) (d : Char) (rest : Bytes)
    (hv : if unquoted = true then isNumberOrBool field else plainText field)
    (hd : endsToken d = true) :
    scanValue (skipWs ((if unquoted = true then field else [dquote] ++ field ++ [dquote]) ++
      d :: rest)) = some (d :: rest) := by
  cases unquoted with
  | true =>
    simp only [if_true] at hv ⊢
    obtain ⟨hne, hsc, hch⟩ := numberOrBool_chars hv
    have htok := scanToken_append field d rest (fun ch h => (hch ch h).1) hd
    cases field with
    | nil => exact absurd rfl hne
    | cons c cs =>
      have hc := hch c (List.mem_cons_self _ _)
      rw [List.cons_append, skipWs_cons_of_not _ (endsToken_not_ws hc.1)]
      rw [List.cons_append] at htok
      simp only [scanValue, if_neg hc.2, htok, hsc, if_true]
  | false =>
    simp only [Bool.false_eq_true, if_false] at hv ⊢
    have hq : isWs dquote = false := by decide
    simp only [List.singleton_append, List.cons_append, List.append_assoc]
    rw [skipWs_cons_of_not _ hq]
    simp only [scanValue, if_true]
    exact scanString_plain field (d :: rest) hv

theorem scanMember_pair (name : Bytes) (unquoted : Bool) (field : Bytes) (d : Char)
    (rest : Bytes) (hn : plainText name)
    (hv : if unquoted = true then isNumberOrBool field else plainText field)
    (hd : endsToken d = true) :
    scanMember (renderPair name unquoted field ++ d :: rest) = some (d :: rest) := by
  have hq : isWs dquote = false := by decide
  have hcolon : isWs ':' = false := by decide
  unfold scanMember renderPair
  simp only [List.singleton_append, List.cons_append, List.append_assoc, List.nil_append]
  rw [skipWs_cons_of_not _ hq]
  simp only [if_true]
  rw [scanString_plain name _ hn]
  simp only
  rw [skipWs_cons_of_not _ hcolon]
  simp only [if_true]
  have := scanValue_rendered unquoted field d rest hv hd
  simpa using this

theorem scanMembers_pairs : ∀ (P : List Bytes) (fuel : Nat),
    (∀ p ∈ P, ∀ (d : Char) (rest : Bytes), endsToken d = true →
      scanMember (p ++ d :: rest) = some (d :: rest)) →
    P ≠ [] → P.length ≤ fuel → scanMembers fuel (joinCommas P ++ ['}']) = true
  | [], _, _, h, _ => absurd rfl h
  | [p], fuel + 1, hP, _, _ => by
    have := hP p (List.mem_cons_self _ _) '}' [] (by decide)
    have hb : isWs '}' = false := by decide
    simp only [joinCommas, scanMembers, this, skipWs_cons_of_not _ hb]
    simp [skipWs]
  | p :: q :: ps, fuel + 1, hP, _, hlen => by
    have := hP p (List.mem_cons_self _ _) ',' (joinCommas (q :: ps) ++ ['}']) (by decide)
    have hc : isWs ',' = false := by decide
    have ih := scanMembers_pairs (q :: ps) fuel
      (fun x hx => hP x (List.mem_cons_of_mem _ hx)) (by simp)
      (by simp only [List.length_cons] at hlen ⊢; omega)
    simp only [joinCommas, List.append_assoc, List.singleton_append, List.cons_append,
      List.nil_append, scanMembers, this, skipWs_cons_of_not _ hc, if_true]
    exact ih
  | _ :: _, 0, _, _, hlen => by simp at hlen

theorem joinCommas_length : ∀ P : List Bytes, (∀ p ∈ P, p ≠ []) →
    P.length ≤ (joinCommas P).length
  | [], _ => by simp
  | [p], h => by
    have := List.length_pos.2 (h p (List.mem_cons_self _ _))
    simp only [joinCommas, List.length_singleton]
    omega
  | p :: q :: ps, h => by
    have ih := joinCommas_length (q :: ps) (fun x hx => h x (List.mem_cons_of_mem _ hx))
    simp only [joinCommas, List.length_append, List.length_cons, List.length_nil] at ih ⊢
    omega

theorem validateLoop_inv (so : SheetOption) (rows : List Bytes) (maxColumn : Int) :
    ∀ (cols : List Column) (idx : Nat) (bt out : Bytes),
      validateLoop so rows maxColumn idx cols bt = RowResult.ok out →
      ((idx + cols.length : Nat) : Int) ≤ maxColumn →
      out = bt ++ pairsFrom idx cols (rows.drop idx)
  | [], idx, bt, out, h, _ => by
    simp only [validateLoop, RowResult.ok.injEq] at h
    simp [pairsFrom, h]
  | col :: cols, idx, bt, out, h, hmax => by
    unfold validateLoop at h
    cases hrow : rows[idx]? with
    | none => rw [hrow] at h; simp at h
    | some row =>
      rw [hrow] at h
      simp only at h
      cases hval : col.Validate so.validator row with
      | some err => rw [hval] at h; simp at h
      | none =>
        rw [hval] at h
        simp only at h
        have hlt : (idx : Int) < maxColumn := by
          simp only [List.length_cons] at hmax
          push_cast at hmax
          omega
        have ih := validateLoop_inv so rows maxColumn cols (idx + 1) _ out h
          (by simp only [List.length_cons] at hmax; push_cast at hmax ⊢; omega)
        have hidx : idx < rows.length := by
          by_contra hcon
          rw [List.getElem?_eq_none (by omega)] at hrow
          cases hrow
        have hdrop : rows.drop idx = row :: rows.drop (idx + 1) := by
          rw [List.getElem?_eq_getElem hidx] at hrow
          cases hrow
          exact List.drop_eq_getElem_cons hidx
        rw [ih, hdrop]
        simp only [pairsFrom, hlt, and_true]
        split <;> simp

theorem rendered_pairs : ∀ (cols : List Column) (rows : List Bytes),
    (∀ (i : Nat) (col : Column) (field : Bytes), cols[i]? = some col → rows[i]? = some field →
      plainText col.Name ∧
        if col.isNoQuoteJson = true then isNumberOrBool field else plainText field) →
    ∀ p ∈ List.zipWith (fun col field => renderPair col.Name col.isNoQuoteJson field) cols rows,
      (∃ p', p = dquote :: p') ∧
      ∀ (d : Char) (rest : Bytes), endsToken d = true →
        scanMember (p ++ d :: rest) = some (d :: rest)
  | [], _, _, p, hp => by simp at hp
  | _ :: _, [], _, p, hp => by simp at hp
  | col :: cols, field :: rows, h, p, hp => by
    simp only [List.zipWith_cons_cons, List.mem_cons] at hp
    rcases hp with hp | hp
    · subst hp
      have h0 := h 0 col field (by simp) (by simp)
      refine ⟨⟨_, by simp [renderPair]; rfl⟩, ?_⟩
      intro d rest hd
      exact scanMember_pair col.Name col.isNoQuoteJson field d rest h0.1 h0.2 hd
    · exact rendered_pairs cols rows
        (fun i c f hc hf => h (i + 1) c f (by simpa using hc) (by simpa using hf)) p hp

/-! ## Claims about the chunk reader -/

/-- C1: for `totalBytes > 0`, `minBytesReadByAGoroutine > 0` and `maxGoroutines ≥ 1` the
list returned by `computeGoroutineOffsets` is non-empty, its first range starts at 0,
its last range ends at `totalBytes-1`, every range has `start ≤ end`, and each range
starts one past the end of the previous one; so every range lies within
`[0, totalBytes-1]` and every byte offset of the file lies in exactly one range. -/
theorem computeGoroutineOffsets_contiguous (totalBytes maxGoroutines minBytes : Int)
    (hT : 0 < totalBytes) (_hB : 0 < minBytes) (_hG : 1 ≤ maxGoroutines) :
    computeGoroutineOffsets totalBytes maxGoroutines minBytes ≠ [] ∧
    (computeGoroutineOffsets totalBytes maxGoroutines minBytes).head?.map Prod.fst = some 0 ∧
    (computeGoroutineOffsets totalBytes maxGoroutines minBytes).getLast?.map Prod.snd
      = some (totalBytes - 1) ∧
    (∀ r ∈ computeGoroutineOffsets totalBytes maxGoroutines minBytes, r.1 ≤ r.2) ∧
    (computeGoroutineOffsets totalBytes maxGoroutines minBytes).Chain'
      (fun a b => b.1 = a.2 + 1) ∧
    (∀ r ∈ computeGoroutineOffsets totalBytes maxGoroutines minBytes,
      0 ≤ r.1 ∧ r.2 ≤ totalBytes - 1) ∧
    (∀ x : Int, 0 ≤ x → x ≤ totalBytes - 1 →
      ∃! i : Nat, ∃ r, (computeGoroutineOffsets totalBytes maxGoroutines minBytes)[i]? = some r ∧
        r.1 ≤ x ∧ x ≤ r.2) := by
  have ht := computeGoroutineOffsets_tiles totalBytes maxGoroutines minBytes hT
  refine ⟨tilesFrom_ne_nil ht, tilesFrom_head ht, tilesFrom_last ht, ?_, tilesFrom_chain ht,
    ?_, tilesFrom_cover ht⟩
  · intro r hr
    exact (tilesFrom_bounds ht r hr).2.1
  · intro r hr
    have := tilesFrom_bounds ht r hr
    exact ⟨this.1, this.2.2⟩

/-- Witness for C1: 1000 bytes, at most 4 goroutines, at least 400 bytes each. -/
theorem computeGoroutineOffsets_contiguous_witness :
    (0 : Int) < 1000 ∧ (0 : Int) < 400 ∧ (1 : Int) ≤ 4 ∧
    (computeGoroutineOffsets 1000 4 400 ≠ [] ∧
    (computeGoroutineOffsets 1000 4 400).head?.map Prod.fst = some 0 ∧
    (computeGoroutineOffsets 1000 4 400).getLast?.map Prod.snd = some (1000 - 1) ∧
    (∀ r ∈ computeGoroutineOffsets 1000 4 400, r.1 ≤ r.2) ∧
    (computeGoroutineOffsets 1000 4 400).Chain' (fun a b => b.1 = a.2 + 1) ∧
    (∀ r ∈ computeGoroutineOffsets 1000 4 400, 0 ≤ r.1 ∧ r.2 ≤ 1000 - 1) ∧
    (∀ x : Int, 0 ≤ x → x ≤ 1000 - 1 →
      ∃! i : Nat, ∃ r, (computeGoroutineOffsets 1000 4 400)[i]? = some r ∧
        r.1 ≤ x ∧ x ≤ r.2)) :=
  ⟨by decide, by decide, by decide,
    computeGoroutineOffsets_contiguous 1000 4 400 (by decide) (by decide) (by decide)⟩

/-- C10: for `totalBytes > 0`, with non-positive `maxGoroutines` and
`minBytesReadByAGoroutine` clamped to 1, `computeGoroutineOffsets` returns exactly the
`n` ranges of the spec, where `n = 1` if `totalBytes ≤ minBytes` or
`totalBytes / minBytes = 1` and `n = min (totalBytes / minBytes) maxGoroutines`
otherwise: with `b = totalBytes / n`, range `i < n-1` is `[i*b, (i+1)*b - 1]`, of exactly
`b` bytes, and the last range is `[(n-1)*b, totalBytes-1]`.  In particular
`totalBytes ≤ minBytes` gives the single range `[0, totalBytes-1]`, and 1000 bytes with a
minimum of 400 and at most 4 goroutines give `[0,499],[500,999]`. -/
theorem computeGoroutineOffsets_ranges (totalBytes maxGoroutines minBytes : Int)
    (hT : 0 < totalBytes) :
    computeGoroutineOffsets totalBytes maxGoroutines minBytes
      = specRanges totalBytes (clampToOne maxGoroutines) (clampToOne minBytes) ∧
    ((computeGoroutineOffsets totalBytes maxGoroutines minBytes).length : Int)
      = specUnitCount totalBytes (clampToOne maxGoroutines) (clampToOne minBytes) ∧
    (∀ (i : Nat) (r : Int × Int),
      (computeGoroutineOffsets totalBytes maxGoroutines minBytes)[i]? = some r →
      (i : Int) < specUnitCount totalBytes (clampToOne maxGoroutines) (clampToOne minBytes) - 1 →
      r.2 - r.1 + 1 =
        totalBytes / specUnitCount totalBytes (clampToOne maxGoroutines) (clampToOne minBytes)) ∧
    (totalBytes ≤ clampToOne minBytes →
      computeGoroutineOffsets totalBytes maxGoroutines minBytes = [(0, totalBytes - 1)]) ∧
    computeGoroutineOffsets 1000 4 400 = [(0, 499), (500, 999)] := by
  have heq := computeGoroutineOffsets_eq_spec totalBytes maxGoroutines minBytes hT
  have hm : 0 < clampToOne minBytes := clampToOne_pos _
  have hg : 0 < clampToOne maxGoroutines := clampToOne_pos _
  have hn : 1 ≤ specUnitCount totalBytes (clampToOne maxGoroutines) (clampToOne minBytes) := by
    unfold specUnitCount
    split
    · exact le_refl _
    · next h =>
      push_neg at h
      have hq : 1 ≤ totalBytes / clampToOne minBytes :=
        Int.le_ediv_of_mul_le hm (by omega)
      exact le_min hq (by omega)
  refine ⟨heq, ?_, ?_, ?_, by decide⟩
  · rw [heq]
    simp only [specRanges, List.length_map, List.length_range]
    omega
  · intro i r hr hi
    rw [heq] at hr
    simp only [specRanges] at hr
    rw [List.getElem?_map] at hr
    have hlt : i < (specUnitCount totalBytes (clampToOne maxGoroutines)
        (clampToOne minBytes)).toNat := by omega
    rw [List.getElem?_range hlt] at hr
    simp only [Option.map_some', Option.some.injEq] at hr
    subst hr
    simp only [specRange, if_pos hi]
    ring
  · intro hle
    rw [heq]
    apply specRanges_one
    simp [specUnitCount, hle]

/-- Witness for C10: 1003 bytes, at most 4 goroutines, at least 100 bytes each give four
ranges; 300 bytes with the minimum of 512 give the single range `[0,299]`. -/
theorem computeGoroutineOffsets_ranges_witness :
    (0 : Int) < 1003 ∧
    (computeGoroutineOffsets 1003 4 100 = specRanges 1003 (clampToOne 4) (clampToOne 100) ∧
    ((computeGoroutineOffsets 1003 4 100).length : Int)
      = specUnitCount 1003 (clampToOne 4) (clampToOne 100) ∧
    (∀ (i : Nat) (r : Int × Int), (computeGoroutineOffsets 1003 4 100)[i]? = some r →
      (i : Int) < specUnitCount 1003 (clampToOne 4) (clampToOne 100) - 1 →
      r.2 - r.1 + 1 = 1003 / specUnitCount 1003 (clampToOne 4) (clampToOne 100)) ∧
    ((1003 : Int) ≤ clampToOne 100 → computeGoroutineOffsets 1003 4 100 = [(0, 1003 - 1)]) ∧
    computeGoroutineOffsets 1000 4 400 = [(0, 499), (500, 999)]) ∧
    computeGoroutineOffsets 1003 4 100 = [(0, 249), (250, 499), (500, 749), (750, 1002)] ∧
    (0 : Int) < 300 ∧ (300 : Int) ≤ clampToOne 512 ∧
    computeGoroutineOffsets 300 4 512 = [(0, 300 - 1)] :=
  ⟨by decide, computeGoroutineOffsets_ranges 1003 4 100 (by decide), by decide, by decide,
    by decide,
    (computeGoroutineOffsets_ranges 300 4 512 (by decide)).2.2.2.1 (by decide)⟩

/-! ## Claims about the merger and `Convert` -/

theorem mergeChunk_data (base : File) (chunk : Bytes) (h : 2 ≤ base.data.length) :
    (mergeChunk base chunk).data =
      base.data.take 2 ++ ',' :: chunk ++ base.data.drop (3 + chunk.length) ∧
    (mergeChunk base chunk).offset = 3 + chunk.length := by
  obtain ⟨data, offset⟩ := base
  match data, h with
  | a :: b :: rest, _ =>
    have e : 3 + chunk.length = chunk.length + 1 + 1 + 1 := by omega
    constructor
    · simp only [mergeChunk, File.Seek, File.Read, File.Write]
      simp
      rw [e]
      simp only [List.drop_succ_cons]
      cases rest with
      | nil => simp
      | cons x xs => simp
    · simp only [mergeChunk, File.Seek, File.Read, File.Write]
      simp

theorem mergeChunk_open (chunk : Bytes) :
    (mergeChunk openBase chunk).data = '[' :: ',' :: chunk ∧
    (mergeChunk openBase chunk).offset = 2 + chunk.length := by
  constructor
  · simp [mergeChunk, openBase, File.Seek, File.Read, File.Write]
  · simp [mergeChunk, openBase, File.Seek, File.Read, File.Write]

theorem runWorkers_nil (c : convert) : ∀ (order : List Nat) (baseTemp : File),
    runWorkers c [] order baseTemp = some baseTemp
  | [], _ => rfl
  | i :: order, baseTemp => by
    simp only [runWorkers, List.getElem?_nil]
    exact runWorkers_nil c order baseTemp

/-- C4 (the code at the failing inputs): the test `string(buffer) != ""` of `worker` is
true for every destination, so a comma is written before every chunk, the first one
included: one chunk `c` finalizes to `[,c]`, with a comma directly after `[`.  The
comma and the chunk are written at offset 1 or 2, not at the end of the destination: two
chunks `{"v":"a"}` and `{"v":"b"}` finalize to `[,,{"v":"b"}]`, and the spec's example
file is converted to a document that starts with `[,`. -/
theorem finalize_leading_comma :
    (∀ chunk : Bytes, (finalize [chunk]).data = '[' :: ',' :: chunk ++ [']']) ∧
    workerLoop (NewSheetOption acceptAll oneColumn) [["a".toList]] true [] = some (objectV "a") ∧
    (finalize [objectV "a"]).data = "[,".toList ++ objectV "a" ++ "]".toList ∧
    (finalize [objectV "a", objectV "b"]).data = "[,,".toList ++ objectV "b" ++ "]".toList ∧
    (convert.Convert (plainConvert idName true 4096) (some peopleCsv.length) peopleCsv [0]
      sinkOk).map (fun r => (r.err, r.workers, r.sink.map (List.take 3)))
        = some (none, 1, some "[,\x7b".toList) := by
  refine ⟨?_, by decide, by decide, by decide, by decide⟩
  intro chunk
  have h := mergeChunk_open chunk
  have e : 2 + chunk.length = chunk.length + 1 + 1 := by omega
  simp only [finalize, mergeAll, List.foldl, File.Write, h.1, h.2, e, List.take_succ_cons,
    List.drop_succ_cons, List.length_cons]
  simp

/-- C5 (the code at the failing inputs): a merge does not append.  Into a destination of
at least two bytes it writes the comma at offset 2 and the chunk at offset 3, over the
bytes that are there.  After `{"v":"aaaa"}` the merge of `{"v":"b"}` leaves
`[,,{"v":"b"}"}`, of which the earlier destination `[,{"v":"aaaa"}` is not a prefix, and
`Convert` then writes `]` at offset 12, so that the file `[,,{"v":"b"}]}` ends with `}`. -/
theorem mergeChunk_overwrites :
    (∀ (a b : Char) (rest : Bytes) (offset : Nat) (chunk : Bytes),
      (mergeChunk { data := a :: b :: rest, offset := offset } chunk).data =
        a :: b :: ',' :: chunk ++ rest.drop (1 + chunk.length)) ∧
    (mergeChunk openBase (objectV "aaaa")).data = "[,".toList ++ objectV "aaaa" ∧
    (mergeChunk (mergeChunk openBase (objectV "aaaa")) (objectV "b")).data
      = "[,,".toList ++ objectV "b" ++ [dquote, '}'] ∧
    ¬ (mergeChunk openBase (objectV "aaaa")).data <+:
      (mergeChunk (mergeChunk openBase (objectV "aaaa")) (objectV "b")).data ∧
    (finalize [objectV "aaaa", objectV "b"]).data = "[,,".toList ++ objectV "b" ++ [']', '}'] ∧
    (finalize [objectV "aaaa", objectV "b"]).data.getLast? = some '}' := by
  refine ⟨?_, by decide, by decide, ?_, by decide, by decide⟩
  · intro a b rest offset chunk
    have h := (mergeChunk_data { data := a :: b :: rest, offset := offset } chunk
      (by simp)).1
    have e : 3 + chunk.length = (1 + chunk.length) + 1 + 1 := by omega
    rw [h, e]
    simp
  intro h
  have := List.isPrefixOf_iff_prefix.2 h
  revert this
  decide

/-- C9 (amended): when the size of the source object is below 1, `getFileSize` returns
an error (`ErrEmptyCSVFile`), `read` sends it on the error channel and returns no row
channel, and `Convert` starts no worker and prints that one error; it then closes the
array and hands the two bytes `[]` to the sink, and what it returns is the result of
that write: `nil` unless the sink fails. -/
theorem convert_empty_source (c : convert) (size : Int) (hsize : size < 1) (object : Bytes)
    (order : List Nat) (putObject : Bytes → Option ConvertError) :
    getFileSize (some size) = none ∧
    read c (some size) object = ([], [ReadError.fileSize]) ∧
    c.Convert (some size) object order putObject =
      some { err := putObject "[]".toList,
             workers := 0,
             printed := [ReadError.fileSize],
             sink := match putObject "[]".toList with
               | none => some "[]".toList
               | some _ => none } := by
  have h1 : getFileSize (some size) = none := by simp [getFileSize, hsize]
  have h2 : read c (some size) object = ([], [ReadError.fileSize]) := by simp [read, h1]
  refine ⟨h1, h2, ?_⟩
  have h3 : runWorkers c [] order openBase = some openBase := runWorkers_nil c order openBase
  have h4 : (openBase.Write [']']).data = "[]".toList := by decide
  simp only [convert.Convert, h2, h3, h4, collectErrs]
  simp

/-- Witness for C9 (amended): an object of size 0 and a sink that accepts the write. -/
theorem convert_empty_source_witness :
    (0 : Int) < 1 ∧
    (getFileSize (some 0) = none ∧
    read (plainConvert oneColumn true 4096) (some 0) [] = ([], [ReadError.fileSize]) ∧
    (plainConvert oneColumn true 4096).Convert (some 0) [] [] sinkOk =
      some { err := sinkOk "[]".toList,
             workers := 0,
             printed := [ReadError.fileSize],
             sink := match sinkOk "[]".toList with
               | none => some "[]".toList
               | some _ => none }) :=
  ⟨by decide, convert_empty_source (plainConvert oneColumn true 4096) 0 (by decide) [] [] sinkOk⟩

/-- C9 as stated fails: for an object of size 0 and a sink that accepts the write,
`Convert` returns `nil` and writes the object `[]`; it does not return an error with
nothing written. -/
theorem convert_empty_source_returns_nil :
    (plainConvert oneColumn true 4096).Convert (some 0) [] [] sinkOk =
      some { err := none, workers := 0, printed := [ReadError.fileSize],
             sink := some "[]".toList } ∧
    ¬ ∃ r, (plainConvert oneColumn true 4096).Convert (some 0) [] [] sinkOk = some r ∧
        r.err ≠ none ∧ r.workers = 0 ∧ r.sink = none := by
  have h : (plainConvert oneColumn true 4096).Convert (some 0) [] [] sinkOk =
      some { err := none, workers := 0, printed := [ReadError.fileSize],
             sink := some "[]".toList } := by decide
  refine ⟨h, ?_⟩
  rintro ⟨r, hr, herr, _, _⟩
  rw [h] at hr
  cases hr
  exact herr rfl

/-! ## Claims about `ValidateRow` -/

/-- C6 (amended): for every schema built by `NewSheetOption` and every record of the
schema's length whose fields all pass their column's rule, `ValidateRow` returns `{`,
the pairs `"name":value` in column order joined by single commas, and `}`, where the
value is the raw field text, unquoted if the text of the column's `Rules` contains
`numeric`, `number` or `bool` anywhere, and wrapped in double quotes, otherwise
unmodified, for every other column; the schema `[id: numeric, name: required]` and the
record `[1, Alice]` give `{"id":1,"name":"Alice"}`. -/
theorem validateRow_renders (validator : Validator) (columns : List Column)
    (record : List Bytes) (hlen : record.length = columns.length)
    (hpass : ∀ (i : Nat) (col : Column) (field : Bytes), columns[i]? = some col →
      record[i]? = some field → validator field col.Rules = none) :
    (NewSheetOption validator columns).ValidateRow record =
      RowResult.ok (specFragment rulesMention columns record) ∧
    (NewSheetOption acceptAll idName).ValidateRow ["1".toList, "Alice".toList] =
      RowResult.ok ('{' :: quoted "id" ++ ':' :: "1".toList ++ ',' :: quoted "name" ++
        ':' :: quoted "Alice" ++ ['}']) := by
  refine ⟨?_, by decide⟩
  have h := validateRow_ok (NewSheetOption validator columns) record
    (by simp [NewSheetOption, initColumns, hlen])
    (by
      intro i col field hcol hfield
      simp only [NewSheetOption, initColumns, List.getElem?_map] at hcol
      cases hc : columns[i]? with
      | none => rw [hc] at hcol; simp at hcol
      | some col0 =>
        rw [hc] at hcol
        simp only [Option.map_some', Option.some.injEq] at hcol
        subst hcol
        exact hpass i col0 field hc hfield)
  rw [h]
  simp only [NewSheetOption, initColumns, specFragment, List.zipWith_map_left,
    updateIsNoQuoteJson_eq]

/-- Witness for C6 (amended): the schema and the record of the spec's example, with a
validator that accepts both fields. -/
theorem validateRow_renders_witness :
    ["1".toList, "Alice".toList].length = idName.length ∧
    (∀ (i : Nat) (col : Column) (field : Bytes), idName[i]? = some col →
      ["1".toList, "Alice".toList][i]? = some field → acceptAll field col.Rules = none) ∧
    ((NewSheetOption acceptAll idName).ValidateRow ["1".toList, "Alice".toList] =
      RowResult.ok (specFragment rulesMention idName ["1".toList, "Alice".toList]) ∧
    (NewSheetOption acceptAll idName).ValidateRow ["1".toList, "Alice".toList] =
      RowResult.ok ('{' :: quoted "id" ++ ':' :: "1".toList ++ ',' :: quoted "name" ++
        ':' :: quoted "Alice" ++ ['}'])) :=
  ⟨by decide, fun _ _ _ _ _ => rfl,
    validateRow_renders acceptAll idName ["1".toList, "Alice".toList] (by decide)
      (fun _ _ _ _ _ => rfl)⟩

/-- C6 as stated fails: the column `kind` with the rules `oneof=number text` has no rule
`numeric`, `number` or `bool`, and the field `text` passes its rule, yet `ValidateRow`
returns `{"kind":text}` with the value unquoted, not `{"kind":"text"}`. -/
theorem validateRow_unquoted_without_numeric_rule :
    kindColumn.map hasNumericRule = [false] ∧
    (NewSheetOption acceptAll kindColumn).ValidateRow ["text".toList] =
      RowResult.ok ('{' :: quoted "kind" ++ ':' :: "text".toList ++ ['}']) ∧
    specFragment hasNumericRule kindColumn ["text".toList] =
      '{' :: quoted "kind" ++ ':' :: quoted "text" ++ ['}'] ∧
    ¬ (∀ (validator : Validator) (columns : List Column) (record : List Bytes),
        record.length = columns.length →
        (∀ (i : Nat) (col : Column) (field : Bytes), columns[i]? = some col →
          record[i]? = some field → validator field col.Rules = none) →
        (NewSheetOption validator columns).ValidateRow record =
          RowResult.ok (specFragment hasNumericRule columns record)) := by
  refine ⟨by decide, by decide, by decide, ?_⟩
  intro h
  have := h acceptAll kindColumn ["text".toList] (by decide) (fun _ _ _ _ _ => rfl)
  revert this
  decide

/-- C8 (amended): `ValidateRow` has no check of the number of fields; the check is made
by the reader.  For a non-empty schema every record that `readBetweenOffsetsAsync` sends
has as many fields as the schema has columns, because `FieldsPerRecord` of the CSV
reader is the number of columns and a line of another length is reported as a parse
error.  `ValidateRow` itself ignores the fields beyond the last column of a longer
record, and for a shorter record it returns no fragment: it ends with the error of the
first failing field or with the panic of the index out of range. -/
theorem arity_checked_by_reader (c : convert) (hcols : c.sheetOption.columns ≠ []) :
    (∀ (data : Bytes) (thread offsetStart offsetEnd : Int),
      ∀ record ∈ (readBetweenOffsetsAsync c data thread offsetStart offsetEnd).rows,
        record.length = c.sheetOption.columns.length) ∧
    (∀ rows : List Bytes, c.sheetOption.columns.length ≤ rows.length →
      c.sheetOption.ValidateRow rows =
        c.sheetOption.ValidateRow (rows.take c.sheetOption.columns.length)) ∧
    (∀ rows : List Bytes, rows.length < c.sheetOption.columns.length →
      ∀ fragment, c.sheetOption.ValidateRow rows ≠ RowResult.ok fragment) := by
  have hpos := columns_pos c hcols
  refine ⟨?_, ?_, ?_⟩
  · intro data t s e record hrec
    rw [rows_eq_filterMap c _ (reader_records c data t s e hpos), List.mem_filterMap] at hrec
    obtain ⟨p, _, hp⟩ := hrec
    have := csvRecord_length c hpos p.2 record hp
    unfold SheetOption.GetColumnLength at this
    exact_mod_cast this
  · intro rows _
    unfold SheetOption.ValidateRow
    rw [validateLoop_take c.sheetOption rows _ c.sheetOption.columns.length
      c.sheetOption.columns 0 _ (by omega)]
  · intro rows hlt fragment
    unfold SheetOption.ValidateRow
    have := validateLoop_short c.sheetOption rows c.sheetOption.GetColumnLength
      c.sheetOption.columns 0 ['{'] (Nat.zero_le _) (by omega)
    cases hres : validateLoop c.sheetOption rows c.sheetOption.GetColumnLength 0
        c.sheetOption.columns ['{'] with
    | ok bt => exact absurd hres (this bt)
    | error err => simp
    | indexPanic => simp

/-- Witness for C8 (amended): a schema of one column; the record `[a, b]` of two fields is
rendered as its first field alone, and the record without fields gives no fragment. -/
theorem arity_checked_by_reader_witness :
    (plainConvert oneColumn false 4096).sheetOption.columns ≠ [] ∧
    ((∀ (data : Bytes) (thread offsetStart offsetEnd : Int),
      ∀ record ∈ (readBetweenOffsetsAsync (plainConvert oneColumn false 4096) data thread
          offsetStart offsetEnd).rows,
        record.length = (plainConvert oneColumn false 4096).sheetOption.columns.length) ∧
    (∀ rows : List Bytes,
      (plainConvert oneColumn false 4096).sheetOption.columns.length ≤ rows.length →
      (plainConvert oneColumn false 4096).sheetOption.ValidateRow rows =
        (plainConvert oneColumn false 4096).sheetOption.ValidateRow
          (rows.take (plainConvert oneColumn false 4096).sheetOption.columns.length)) ∧
    (∀ rows : List Bytes,
      rows.length < (plainConvert oneColumn false 4096).sheetOption.columns.length →
      ∀ fragment, (plainConvert oneColumn false 4096).sheetOption.ValidateRow rows ≠
        RowResult.ok fragment)) ∧
    (plainConvert oneColumn false 4096).sheetOption.columns.length
      ≤ ["a".toList, "b".toList].length ∧
    (plainConvert oneColumn false 4096).sheetOption.ValidateRow ["a".toList, "b".toList] =
      (plainConvert oneColumn false 4096).sheetOption.ValidateRow
        (["a".toList, "b".toList].take
          (plainConvert oneColumn false 4096).sheetOption.columns.length) ∧
    ([] : List Bytes).length < (plainConvert oneColumn false 4096).sheetOption.columns.length ∧
    (∀ fragment, (plainConvert oneColumn false 4096).sheetOption.ValidateRow [] ≠
      RowResult.ok fragment) :=
  ⟨by decide, arity_checked_by_reader (plainConvert oneColumn false 4096) (by decide),
    by decide,
    (arity_checked_by_reader (plainConvert oneColumn false 4096) (by decide)).2.1
      ["a".toList, "b".toList] (by decide),
    by decide,
    (arity_checked_by_reader (plainConvert oneColumn false 4096) (by decide)).2.2 []
      (by decide)⟩

/-- C8 as stated fails: for the schema of one column `v`, `ValidateRow` returns the
fragment `{"v":"a"}` for the record `[a, b]` of two fields, with no error; and for the
record without fields it returns nothing at all, the index being out of range. -/
theorem validateRow_ignores_arity :
    (NewSheetOption acceptAll oneColumn).ValidateRow ["a".toList, "b".toList] =
      RowResult.ok (objectV "a") ∧
    (NewSheetOption acceptAll oneColumn).ValidateRow [] = RowResult.indexPanic ∧
    ¬ (∀ (so : SheetOption) (rows : List Bytes), rows.length ≠ so.columns.length →
        ∃ err, so.ValidateRow rows = RowResult.error err) := by
  refine ⟨by decide, by decide, ?_⟩
  intro h
  obtain ⟨err, herr⟩ := h (NewSheetOption acceptAll oneColumn) ["a".toList, "b".toList]
    (by decide)
  have hok : (NewSheetOption acceptAll oneColumn).ValidateRow ["a".toList, "b".toList] =
      RowResult.ok (objectV "a") := by decide
  rw [hok] at herr
  cases herr

/-! ## Claim about the JSON syntax of fragments -/

theorem mem_zip_of_getElem? {α β : Type} : ∀ (xs : List α) (ys : List β) (i : Nat) (x : α)
    (y : β), xs[i]? = some x → ys[i]? = some y → (x, y) ∈ List.zip xs ys
  | [], _, _, _, _, hx, _ => by simp at hx
  | _ :: _, [], _, _, _, _, hy => by simp at hy
  | a :: xs, b :: ys, 0, x, y, hx, hy => by
    simp only [List.getElem?_cons_zero, Option.some.injEq] at hx hy
    subst hx; subst hy
    simp
  | a :: xs, b :: ys, i + 1, x, y, hx, hy => by
    simp only [List.getElem?_cons_succ] at hx hy
    simp only [List.zip_cons_cons, List.mem_cons]
    exact Or.inr (mem_zip_of_getElem? xs ys i x y hx hy)

/-- C7 (amended): `ValidateRow` escapes nothing.  For every schema and every record that
`ValidateRow` accepts, if every column name and every field rendered between quotes
holds no double quote, no backslash and no control character, and every field rendered
unquoted is a well-formed JSON number or boolean, then the returned fragment is a
syntactically valid JSON object. -/
theorem validateRow_json_object (so : SheetOption) (rows : List Bytes) (fragment : Bytes)
    (hok : so.ValidateRow rows = RowResult.ok fragment)
    (hplain : ∀ p ∈ List.zip so.columns rows,
      plainText p.1.Name ∧
        if p.1.isNoQuoteJson = true then isNumberOrBool p.2 else plainText p.2) :
    isJsonObject fragment = true := by
  unfold SheetOption.ValidateRow at hok
  cases hloop : validateLoop so rows so.GetColumnLength 0 so.columns ['{'] with
  | error err => rw [hloop] at hok; simp at hok
  | indexPanic => rw [hloop] at hok; simp at hok
  | ok bt =>
    rw [hloop] at hok
    simp only [RowResult.ok.injEq] at hok
    have hbt := validateLoop_inv so rows so.GetColumnLength so.columns 0 ['{'] bt hloop
      (by simp [SheetOption.GetColumnLength])
    rw [List.drop_zero, pairsFrom_zero] at hbt
    have hP := rendered_pairs so.columns rows
      (fun i col field hc hf => hplain (col, field) (mem_zip_of_getElem? _ _ i col field hc hf))
    generalize List.zipWith (fun col field => renderPair col.Name col.isNoQuoteJson field)
      so.columns rows = P at hbt hP
    subst hok
    subst hbt
    have hbrace : isWs '{' = false := by decide
    unfold isJsonObject
    simp only [List.singleton_append, List.cons_append, List.append_assoc, List.nil_append,
      skipWs_cons_of_not _ hbrace, if_true]
    cases P with
    | nil =>
      have hb : isWs '}' = false := by decide
      simp only [joinCommas, List.nil_append, skipWs_cons_of_not _ hb, if_true]
      simp [skipWs]
    | cons p ps =>
      obtain ⟨⟨p', hp'⟩, _⟩ := hP p (List.mem_cons_self _ _)
      have hq : isWs dquote = false := by decide
      have hstart : ∃ tl, joinCommas (p :: ps) ++ ['}'] = dquote :: tl := by
        cases ps with
        | nil => exact ⟨p' ++ ['}'], by simp [joinCommas, hp']⟩
        | cons q qs => exact ⟨p' ++ [','] ++ joinCommas (q :: qs) ++ ['}'], by
            simp [joinCommas, hp']⟩
      obtain ⟨tl, htl⟩ := hstart
      have hmem := scanMembers_pairs (p :: ps)
        ('{' :: (joinCommas (p :: ps) ++ ['}'])).length (fun x hx => (hP x hx).2) (by simp)
        (by
          have := joinCommas_length (p :: ps) (fun x hx h0 => by
            obtain ⟨⟨x', hx'⟩, _⟩ := hP x hx
            rw [hx'] at h0
            cases h0)
          simp only [List.length_cons, List.length_append, List.length_nil] at this ⊢
          omega)
      rw [htl] at hmem ⊢
      rw [skipWs_cons_of_not _ hq]
      have hne : dquote ≠ '}' := by decide
      simp only [if_neg hne]
      exact hmem

/-- Witness for C7 (amended): the schema and the record of the spec's example. -/
theorem validateRow_json_object_witness :
    (NewSheetOption acceptAll idName).ValidateRow ["1".toList, "Alice".toList] =
      RowResult.ok ('{' :: quoted "id" ++ ':' :: "1".toList ++ ',' :: quoted "name" ++
        ':' :: quoted "Alice" ++ ['}']) ∧
    (∀ p ∈ List.zip (NewSheetOption acceptAll idName).columns ["1".toList, "Alice".toList],
      plainText p.1.Name ∧
        if p.1.isNoQuoteJson = true then isNumberOrBool p.2 else plainText p.2) ∧
    isJsonObject ('{' :: quoted "id" ++ ':' :: "1".toList ++ ',' :: quoted "name" ++
        ':' :: quoted "Alice" ++ ['}']) = true :=
  ⟨by decide, by decide,
    validateRow_json_object (NewSheetOption acceptAll idName) ["1".toList, "Alice".toList] _
      (by decide) (by decide)⟩

/-- C7 as stated fails: for the schema of one column `v` with the rule `required`, the
field `a"b` is accepted and rendered as `{"v":"a"b"}`, which is not a JSON object: the
string ends at the second quote and `b` follows it.  An unquoted value is not checked
either: for the schema `[id: numeric, name: required]` the record `[007, x]` is rendered
as `{"id":007,"name":"x"}`, and `007` is not a JSON number. -/
theorem validateRow_unescaped_quote :
    (NewSheetOption acceptAll oneColumn).ValidateRow [quoteInside] =
      RowResult.ok ('{' :: quoted "v" ++ ':' :: dquote :: quoteInside ++ [dquote, '}']) ∧
    isJsonObject ('{' :: quoted "v" ++ ':' :: dquote :: quoteInside ++ [dquote, '}']) = false ∧
    (NewSheetOption acceptAll idName).ValidateRow ["007".toList, "x".toList] =
      RowResult.ok ('{' :: quoted "id" ++ ':' :: "007".toList ++ ',' :: quoted "name" ++
        ':' :: quoted "x" ++ ['}']) ∧
    isJsonObject ('{' :: quoted "id" ++ ':' :: "007".toList ++ ',' :: quoted "name" ++
        ':' :: quoted "x" ++ ['}']) = false ∧
    ¬ (∀ (so : SheetOption) (rows : List Bytes) (fragment : Bytes),
        so.ValidateRow rows = RowResult.ok fragment → isJsonObject fragment = true) := by
  have h1 : (NewSheetOption acceptAll oneColumn).ValidateRow [quoteInside] =
      RowResult.ok ('{' :: quoted "v" ++ ':' :: dquote :: quoteInside ++ [dquote, '}']) := by
    decide
  have h2 : isJsonObject ('{' :: quoted "v" ++ ':' :: dquote :: quoteInside ++ [dquote, '}'])
      = false := by decide
  refine ⟨h1, h2, by decide, by decide, ?_⟩
  intro h
  have := h _ _ _ h1
  rw [h2] at this
  cases this

end MinioCsvToJson
